import Mathlib

/-!
Verification of the incremental compilation query engine and the
asynchronous macro expansion engine of the embed_lang front-end
(`src/vm/src/macros.rs` and `src/src/query.rs`).

The development shallowly embeds the two subsystems:

* the type-erased error value of `macros.rs` (`MacroError`, `Error`),
  closed over the concrete error types the repository actually wraps;
* the AST fragment the expansion engine manipulates, as a mutual
  inductive (`Expr` / `SpExpr` / `SpExprList`); `Vec<SpannedExpr>` is
  modelled by the mutually inductive list type so that all recursions
  are structural and evaluate by `rfl`;
* `MacroVisitor::visit_expr` / `MacroExpander::run`: the `&mut
  SpannedExpr` references collected in the visitor's worklist are
  modelled by indexed `hole` nodes; a per-site future is modelled by
  its eventual result together with an external completion order.
  The visitor carries a fuel argument because derive generators inject
  freshly generated subtrees into the tree being traversed, so the
  source's recursion is not structurally bounded by the input tree;
  every theorem below either holds for every fuel or names the fuel
  shape it needs;
* the query engine state (`State`, `CompilerDatabase`), the
  `module_text` and `import` queries and the `collect_garbage` sweep;
* the dotted-name resolution adapter (`get_global` / `get_binding`);
  dotted names are modelled as their lists of `.`-separated segments.
-/

namespace Gluon

/-- Byte span of an AST node (`pos::Span<BytePos>`). -/
structure Span where
  start : Nat
  stop : Nat
deriving DecidableEq, Repr

/-! ## The type-erased error value of `macros.rs`

`pub struct Error(Box<MacroError>)` erases the concrete error type;
`impl<T> MacroError for T` implements `clone_error` by boxing
`self.clone()` and `eq_error` by `other.downcast_ref::<Self>()`
followed by `PartialEq` on the concrete type.  The embedding closes
the open universe of concrete `MacroError` types over the ones this
repository wraps: the local `StringError(String)` of `Error::message`
and the loader errors wrapped by `module_text` via
`macros::Error::new`. -/

/-- Content of the `Box<MacroError>` trait object: the concrete error
value together with its concrete type, which `downcast_ref` inspects. -/
inductive MacroErrorValue where
  /-- The private `StringError(String)` used by `Error::message`. -/
  | stringError (s : String)
  /-- A loader/import error wrapped by `macros::Error::new` in
  `module_text` (a distinct concrete Rust type, hence a distinct
  `TypeId`). -/
  | importError (s : String)
deriving DecidableEq, Repr

namespace MacroErrorValue

/-- The runtime type tag `mopa::Any` dispatches on (`TypeId::of::<T>`). -/
def typeId : MacroErrorValue → Nat
  | .stringError _ => 0
  | .importError _ => 1

/-- `downcast_ref::<StringError>`: succeeds exactly on values whose
concrete type is `StringError`. -/
def downcastStringError : MacroErrorValue → Option String
  | .stringError s => some s
  | _ => none

/-- `downcast_ref` to the loader-error type. -/
def downcastImportError : MacroErrorValue → Option String
  | .importError s => some s
  | _ => none

/-- `MacroError::eq_error` of the blanket impl: downcast `other` to
`Self` and compare with the concrete type's `PartialEq` (derived
structural equality for both concrete types), else `false`. -/
def eqError : MacroErrorValue → MacroErrorValue → Bool
  | .stringError s, other =>
    match downcastStringError other with
    | some t => s == t
    | none => false
  | .importError s, other =>
    match downcastImportError other with
    | some t => s == t
    | none => false

/-- `MacroError::clone_error` of the blanket impl: `self.clone()`,
the derived `Clone` of the concrete type (a structural copy). -/
def cloneError (e : MacroErrorValue) : MacroErrorValue := e

end MacroErrorValue

/-- `pub struct Error(Box<MacroError>)`. -/
structure Error where
  val : MacroErrorValue
deriving DecidableEq, Repr

namespace Error

/-- `Error::new`. -/
def new (v : MacroErrorValue) : Error := ⟨v⟩

/-- `Error::message`: wraps the string in the local `StringError`. -/
def message (s : String) : Error := ⟨.stringError s⟩

/-- `impl Clone for Error`: delegates to `clone_error`. -/
def clone (e : Error) : Error := ⟨e.val.cloneError⟩

/-- `impl PartialEq for Error`: `self.0.eq_error(&*other.0)`. -/
def eqE (a b : Error) : Bool := a.val.eqError b.val

end Error

/-! ## The AST fragment the expansion engine manipulates

`base::ast::Expr<Symbol>` restricted to the constructors
`MacroVisitor::visit_expr` distinguishes; every other expression form
behaves like the leaves here (the visitor just walks its children).
The `hole` constructor is not part of the source AST: it stands for a
`&mut SpannedExpr` reference pushed into `MacroVisitor::exprs`, i.e. a
slot that the completion phase of `MacroExpander::run` overwrites via
`replace_expr` (`mem::replace` semantics: the site's original node is
kept in the site record). -/

/-- An attribute attached to a type binding's metadata
(`bind.metadata.attributes`). -/
structure Attribute where
  name : String
  arguments : Option String
deriving DecidableEq, Repr

/-- A binding of a `type` binding group (`TypeBinding`): its spanned
name (`bind.name`) and its metadata attributes.  Type bindings contain
no sub-expressions. -/
structure TypeBinding where
  name : Span × String
  attributes : List Attribute
deriving DecidableEq, Repr

mutual
/-- `base::ast::Expr<Symbol>` (the fragment relevant to expansion). -/
inductive Expr : Type where
  /-- `Expr::Ident`. -/
  | ident (name : String)
  /-- `Expr::App { func, implicit_args, args }`. -/
  | app (func : SpExpr) (implicitArgs : SpExprList) (args : SpExprList)
  /-- `Expr::LetBindings(ValueBindings, body)`; `isRecursive` selects
  `ValueBindings::Recursive`.  Bindings are modelled by their
  right-hand-side expressions. -/
  | letBindings (isRecursive : Bool) (binds : SpExprList) (body : SpExpr)
  /-- `Expr::TypeBindings(binds, body)`. -/
  | typeBindings (binds : List TypeBinding) (body : SpExpr)
  /-- `Expr::MacroExpansion { original, replacement }`. -/
  | MacroExpansion (original : SpExpr) (replacement : SpExpr)
  /-- `Expr::Error(None)`. -/
  | error
  /-- Model device: the `&mut SpannedExpr` slot of the `k`-th entry of
  `MacroVisitor::exprs` (not a source constructor, see above). -/
  | hole (idx : Nat)
/-- `SpannedExpr<Symbol>` = `Spanned<Expr<Symbol>, BytePos>`. -/
inductive SpExpr : Type where
  | mk (span : Span) (value : Expr)
/-- `Vec<SpannedExpr<Symbol>>`, as a mutually inductive list. -/
inductive SpExprList : Type where
  | nil
  | cons (head : SpExpr) (tail : SpExprList)
end

deriving instance DecidableEq for Expr
deriving instance DecidableEq for SpExpr
deriving instance DecidableEq for SpExprList

namespace SpExpr

/-- The `span` field of `Spanned`. -/
def span : SpExpr → Span
  | .mk s _ => s

/-- The `value` field of `Spanned`. -/
def value : SpExpr → Expr
  | .mk _ v => v

end SpExpr

namespace SpExprList

/-- Emptiness test (`Vec::is_empty`). -/
def isNil : SpExprList → Bool
  | .nil => true
  | .cons _ _ => false

/-- List concatenation, as produced by `flat_map` collection. -/
def append : SpExprList → SpExprList → SpExprList
  | .nil, ys => ys
  | .cons x xs, ys => .cons x (append xs ys)

end SpExprList

/-! ## Hole filling

`replace_expr` overwrites the `&mut SpannedExpr` slot of a site.  In
the embedding an overwrite of slot `k` with value `v` is the
substitution `fillSp (single k v)`; a substitution environment
`σ : Nat → Option SpExpr` overwrites every slot it is defined on and
leaves the other slots in place. -/

mutual
/-- Fill holes in a spanned expression; a filled slot is replaced
wholesale (`*expr = …`), span included. -/
def fillSp (σ : Nat → Option SpExpr) : SpExpr → SpExpr
  | .mk sp (.hole k) =>
    match σ k with
    | some v => v
    | none => .mk sp (.hole k)
  | .mk sp e => .mk sp (fillE σ e)
/-- Fill holes in an expression's children. -/
def fillE (σ : Nat → Option SpExpr) : Expr → Expr
  | .app f ia a => .app (fillSp σ f) (fillL σ ia) (fillL σ a)
  | .letBindings r bs b => .letBindings r (fillL σ bs) (fillSp σ b)
  | .typeBindings tbs b => .typeBindings tbs (fillSp σ b)
  | .MacroExpansion o r => .MacroExpansion (fillSp σ o) (fillSp σ r)
  | e => e
/-- Fill holes pointwise in an expression list. -/
def fillL (σ : Nat → Option SpExpr) : SpExprList → SpExprList
  | .nil => .nil
  | .cons h t => .cons (fillSp σ h) (fillL σ t)
end

mutual
/-- A spanned expression without holes, i.e. an actual source AST with
no outstanding worklist slot. -/
def holeFreeSp : SpExpr → Bool
  | .mk _ e => holeFreeE e
/-- Hole-freeness of an expression. -/
def holeFreeE : Expr → Bool
  | .ident _ => true
  | .app f ia a => holeFreeSp f && holeFreeL ia && holeFreeL a
  | .letBindings _ bs b => holeFreeL bs && holeFreeSp b
  | .typeBindings _ b => holeFreeSp b
  | .MacroExpansion o r => holeFreeSp o && holeFreeSp r
  | .error => true
  | .hole _ => false
/-- Hole-freeness of an expression list. -/
def holeFreeL : SpExprList → Bool
  | .nil => true
  | .cons h t => holeFreeSp h && holeFreeL t
end

/-- The overwrite of a single slot (one `replace_expr` call). -/
def single (k : Nat) (v : SpExpr) : Nat → Option SpExpr :=
  fun m => if m = k then some v else none

/-- Composition of substitutions: filling with `τ` and then with `σ`
is filling once with `compSubst σ τ`. -/
def compSubst (σ τ : Nat → Option SpExpr) : Nat → Option SpExpr :=
  fun k =>
    match τ k with
    | some v => some (fillSp σ v)
    | none => σ k

mutual
theorem fillSp_comp (σ τ : Nat → Option SpExpr) :
    ∀ x : SpExpr, fillSp σ (fillSp τ x) = fillSp (compSubst σ τ) x
  | .mk sp (.hole k) => by
    cases hτ : τ k with
    | some v => simp [fillSp, compSubst, hτ]
    | none => cases hσ : σ k <;> simp [fillSp, compSubst, hτ, hσ]
  | .mk sp (.ident n) => by simp [fillSp, fillE]
  | .mk sp (.app f ia a) => by
    simp [fillSp, fillE, fillSp_comp σ τ f, fillL_comp σ τ ia, fillL_comp σ τ a]
  | .mk sp (.letBindings r bs b) => by
    simp [fillSp, fillE, fillL_comp σ τ bs, fillSp_comp σ τ b]
  | .mk sp (.typeBindings tbs b) => by
    simp [fillSp, fillE, fillSp_comp σ τ b]
  | .mk sp (.MacroExpansion o r) => by
    simp [fillSp, fillE, fillSp_comp σ τ o, fillSp_comp σ τ r]
  | .mk sp .error => by simp [fillSp, fillE]
theorem fillL_comp (σ τ : Nat → Option SpExpr) :
    ∀ xs : SpExprList, fillL σ (fillL τ xs) = fillL (compSubst σ τ) xs
  | .nil => by simp [fillL]
  | .cons h t => by simp [fillL, fillSp_comp σ τ h, fillL_comp σ τ t]
end

mutual
theorem fillSp_holeFree (σ : Nat → Option SpExpr) :
    ∀ x : SpExpr, holeFreeSp x = true → fillSp σ x = x
  | .mk sp (.hole k) => by simp [holeFreeSp, holeFreeE]
  | .mk sp (.ident n) => by simp [fillSp, fillE]
  | .mk sp (.app f ia a) => by
    simp only [holeFreeSp, holeFreeE, Bool.and_eq_true, and_imp, fillSp, fillE, SpExpr.mk.injEq,
      Expr.app.injEq]
    intro hf hia ha
    exact ⟨trivial, fillSp_holeFree σ f hf, fillL_holeFree σ ia hia, fillL_holeFree σ a ha⟩
  | .mk sp (.letBindings r bs b) => by
    simp only [holeFreeSp, holeFreeE, Bool.and_eq_true, and_imp, fillSp, fillE, SpExpr.mk.injEq,
      Expr.letBindings.injEq]
    intro hbs hb
    exact ⟨trivial, trivial, fillL_holeFree σ bs hbs, fillSp_holeFree σ b hb⟩
  | .mk sp (.typeBindings tbs b) => by
    simp only [holeFreeSp, holeFreeE, fillSp, fillE, SpExpr.mk.injEq, Expr.typeBindings.injEq]
    intro hb
    exact ⟨trivial, trivial, fillSp_holeFree σ b hb⟩
  | .mk sp (.MacroExpansion o r) => by
    simp only [holeFreeSp, holeFreeE, Bool.and_eq_true, and_imp, fillSp, fillE, SpExpr.mk.injEq,
      Expr.MacroExpansion.injEq]
    intro ho hr
    exact ⟨trivial, fillSp_holeFree σ o ho, fillSp_holeFree σ r hr⟩
  | .mk sp .error => by simp [fillSp, fillE]
theorem fillL_holeFree (σ : Nat → Option SpExpr) :
    ∀ xs : SpExprList, holeFreeL xs = true → fillL σ xs = xs
  | .nil => by simp [fillL]
  | .cons h t => by
    simp only [holeFreeL, Bool.and_eq_true, and_imp, fillL, SpExprList.cons.injEq]
    intro hh ht
    exact ⟨fillSp_holeFree σ h hh, fillL_holeFree σ t ht⟩
end

mutual
/-- Filling with the empty substitution changes nothing. -/
theorem fillSp_none : ∀ x : SpExpr, fillSp (fun _ => none) x = x
  | .mk sp (.hole k) => by simp [fillSp]
  | .mk sp (.ident n) => by simp [fillSp, fillE]
  | .mk sp (.app f ia a) => by
    simp [fillSp, fillE, fillSp_none f, fillL_none ia, fillL_none a]
  | .mk sp (.letBindings r bs b) => by
    simp [fillSp, fillE, fillL_none bs, fillSp_none b]
  | .mk sp (.typeBindings tbs b) => by simp [fillSp, fillE, fillSp_none b]
  | .mk sp (.MacroExpansion o r) => by
    simp [fillSp, fillE, fillSp_none o, fillSp_none r]
  | .mk sp .error => by simp [fillSp, fillE]
theorem fillL_none : ∀ xs : SpExprList, fillL (fun _ => none) xs = xs
  | .nil => by simp [fillL]
  | .cons h t => by simp [fillL, fillSp_none h, fillL_none t]
end

/-! ## The macro expansion engine (`MacroExpander` / `MacroVisitor`)

A registered `Macro`'s `expand` returns a `MacroFuture`; the future is
modelled by its eventual result, and the nondeterministic order in
which the outstanding futures complete is an explicit parameter of the
run (`order` below).  `crate::derive::generate` lives outside the
exported sources; it is the external derive code generator collaborator
and is a parameter (`DeriveGen`) here. -/

/-- A macro implementation: `Macro::expand` applied to the cloned
argument list, modelled by the future's eventual result. -/
def MacroFn : Type := SpExprList → Except Error SpExpr

/-- The derive code generator collaborator (`crate::derive::generate`):
from the `derive` attribute and the type binding, synchronously a list
of generated bindings or a generation error. -/
def DeriveGen : Type := Attribute → TypeBinding → Except Error SpExprList

/-- One entry of `MacroVisitor::exprs`: the worklist slot index (the
position of the site in depth-first submission order), the site's
span, the original node (what `mem::replace` hands to `replace_expr`
at completion) and the site's future, modelled by its result. -/
structure Site where
  idx : Nat
  span : Span
  original : SpExpr
  result : Except Error SpExpr

/-- `bind.metadata.attributes.iter().find(|attr| attr.name == "derive")`:
the first attribute named `derive`, if any. -/
def findDerive (b : TypeBinding) : Option Attribute :=
  b.attributes.find? (fun a => a.name == "derive")

/-- Bindings contributed by one type binding in the `flat_map` of the
`TypeBindings` arm: the generator's output on success, nothing on
failure or when no `derive` attribute is attached. -/
def deriveGenOne (dgen : DeriveGen) (b : TypeBinding) : SpExprList :=
  match findDerive b with
  | some attr =>
    match dgen attr b with
    | .ok xs => xs
    | .error _ => .nil
  | none => .nil

/-- Errors pushed by one type binding in the same `flat_map`: the
generation failure, recorded against the binding's name span. -/
def deriveErrOne (dgen : DeriveGen) (b : TypeBinding) : List (Span × Error) :=
  match findDerive b with
  | some attr =>
    match dgen attr b with
    | .ok _ => []
    | .error e => [(b.name.1, e)]
  | none => []

/-- `generated_bindings`: concatenation over the group's bindings. -/
def deriveGenerated (dgen : DeriveGen) : List TypeBinding → SpExprList
  | [] => .nil
  | b :: bs => (deriveGenOne dgen b).append (deriveGenerated dgen bs)

/-- The derive errors pushed while processing the group, in binding
order. -/
def deriveErrors (dgen : DeriveGen) : List TypeBinding → List (Span × Error)
  | [] => []
  | b :: bs => deriveErrOne dgen b ++ deriveErrors dgen bs

/-- Result of a visit: the rewritten tree (sites replaced by their
worklist slots), the next free slot index, the collected sites in
depth-first submission order, and the errors pushed so far. -/
structure VRes (τ : Type) where
  tree : τ
  next : Nat
  sites : List Site
  errs : List (Span × Error)

/-- The message of the implicit-argument error pushed at a macro
invocation site. -/
def implicitArgsMessage : String := "Implicit arguments are not allowed on macros"

/-- `id.name.as_ref().ends_with('!')`: the callee name ends with the
macro-invocation marker. -/
def endsWithBang (s : String) : Bool := s.data.getLast? == some '!' 

mutual
/-- `MacroVisitor::visit_expr`.  At an `App` node whose callee is an
identifier ending in `!`: push the implicit-argument error if implicit
arguments are present, look the macro up under the name with the `!`
stripped, and if found initiate its expansion on a clone of the
argument list and register the node in the worklist (without
descending into it); in every other case fall through to
`walk_mut_expr` over the children.  At a `TypeBindings` node, run the
derive generators and, if they produced bindings, wrap the body in a
recursive `LetBindings` group before walking on.  The fuel argument
only bounds the recursion depth (derive generators inject fresh
subtrees, so the recursion is not structural in the input); an
exhausted visit returns its argument unvisited. -/
def visitSp (env : String → Option MacroFn) (dgen : DeriveGen) :
    Nat → SpExpr → Nat → VRes SpExpr
  | 0, x, i => ⟨x, i, [], []⟩
  | fuel + 1, .mk sp e, i =>
    match e with
    | .app f iargs args =>
      match f with
      | .mk fsp (.ident idname) =>
        if endsWithBang idname then
          let errs0 : List (Span × Error) :=
            if iargs.isNil then []
            else [(sp, Error.message implicitArgsMessage)]
          match env (idname.dropRight 1) with
          | some m =>
            ⟨.mk sp (.hole i), i + 1,
             [⟨i, sp, .mk sp (.app (.mk fsp (.ident idname)) iargs args), m args⟩],
             errs0⟩
          | none =>
            let rf := visitSp env dgen fuel (.mk fsp (.ident idname)) i
            let ri := visitL env dgen fuel iargs rf.next
            let ra := visitL env dgen fuel args ri.next
            ⟨.mk sp (.app rf.tree ri.tree ra.tree), ra.next,
             rf.sites ++ ri.sites ++ ra.sites, errs0 ++ (rf.errs ++ ri.errs ++ ra.errs)⟩
        else
          let rf := visitSp env dgen fuel (.mk fsp (.ident idname)) i
          let ri := visitL env dgen fuel iargs rf.next
          let ra := visitL env dgen fuel args ri.next
          ⟨.mk sp (.app rf.tree ri.tree ra.tree), ra.next,
           rf.sites ++ ri.sites ++ ra.sites, rf.errs ++ ri.errs ++ ra.errs⟩
      | _ =>
        let rf := visitSp env dgen fuel f i
        let ri := visitL env dgen fuel iargs rf.next
        let ra := visitL env dgen fuel args ri.next
        ⟨.mk sp (.app rf.tree ri.tree ra.tree), ra.next,
         rf.sites ++ ri.sites ++ ra.sites, rf.errs ++ ri.errs ++ ra.errs⟩
    | .letBindings r bs b =>
      let rbs := visitL env dgen fuel bs i
      let rb := visitSp env dgen fuel b rbs.next
      ⟨.mk sp (.letBindings r rbs.tree rb.tree), rb.next,
       rbs.sites ++ rb.sites, rbs.errs ++ rb.errs⟩
    | .typeBindings tbs b =>
      let gens := deriveGenerated dgen tbs
      let derrs := deriveErrors dgen tbs
      if gens.isNil then
        let rb := visitSp env dgen fuel b i
        ⟨.mk sp (.typeBindings tbs rb.tree), rb.next, rb.sites, derrs ++ rb.errs⟩
      else
        let rg := visitL env dgen fuel gens i
        let rb := visitSp env dgen fuel b rg.next
        ⟨.mk sp (.typeBindings tbs
           (.mk ⟨0, 0⟩ (.letBindings true rg.tree rb.tree))), rb.next,
         rg.sites ++ rb.sites, derrs ++ (rg.errs ++ rb.errs)⟩
    | .MacroExpansion o r =>
      let rr := visitSp env dgen fuel r i
      ⟨.mk sp (.MacroExpansion o rr.tree), rr.next, rr.sites, rr.errs⟩
    | e => ⟨.mk sp e, i, [], []⟩
/-- Visit of an expression list, left to right. -/
def visitL (env : String → Option MacroFn) (dgen : DeriveGen) :
    Nat → SpExprList → Nat → VRes SpExprList
  | 0, xs, i => ⟨xs, i, [], []⟩
  | _fuel + 1, .nil, i => ⟨.nil, i, [], []⟩
  | fuel + 1, .cons h t, i =>
    let rh := visitSp env dgen fuel h i
    let rt := visitL env dgen fuel t rh.next
    ⟨.cons rh.tree rt.tree, rt.next, rh.sites ++ rt.sites, rh.errs ++ rt.errs⟩
end

/-- The value `replace_expr` stores at a completed site: a
`MacroExpansion` wrapper around the original node, whose replacement
is the macro's output re-spanned to the call site on success
(`replacement.span = expr.span`) and an `Expr::Error(None)` placeholder
on failure. -/
def siteFill (s : Site) : SpExpr :=
  .mk s.span (.MacroExpansion s.original
    (.mk s.span (match s.result with | .ok r => r.value | .error _ => .error)))

/-- The tree mutations of the completion phase: each completing future
overwrites its own site slot; `completed` lists the sites in the order
in which their futures complete. -/
def applyCompleted (t : SpExpr) (completed : List Site) : SpExpr :=
  completed.foldl (fun t s => fillSp (single s.idx (siteFill s)) t) t

/-- The error stream yielded by `stream::futures_ordered` and pushed
by the trailing `for_each`: one spanned error per failing site, in
submission order. -/
def siteErrors (sites : List Site) : List (Span × Error) :=
  sites.filterMap (fun s =>
    match s.result with
    | .error e => some (s.span, e)
    | .ok _ => none)

/-- `MacroExpander::run`: visit the tree, collecting the worklist,
then drive all futures; each future's `then` continuation mutates its
own site slot when that future completes (i.e. in completion order,
`order`), while `futures_ordered` buffers the per-future error results
and yields them in submission order.  Returns the final tree and the
accumulated errors (`MacroExpander::errors`). -/
def runExpander (env : String → Option MacroFn) (dgen : DeriveGen) (fuel : Nat)
    (order : List Nat) (e : SpExpr) : SpExpr × List (Span × Error) :=
  let r := visitSp env dgen fuel e 0
  let completed := order.filterMap (fun i => r.sites[i]?)
  (applyCompleted r.tree completed, r.errs ++ siteErrors r.sites)

/-- The worklist collected for a tree, in submission order. -/
def sitesOf (env : String → Option MacroFn) (dgen : DeriveGen) (fuel : Nat)
    (e : SpExpr) : List Site :=
  (visitSp env dgen fuel e 0).sites

/-- `MacroExpander::finish`: the accumulated error list if non-empty. -/
def finishExpander (errs : List (Span × Error)) : Except (List (Span × Error)) Unit :=
  if errs.isEmpty then .ok () else .error errs

/-! ## Submission-order bookkeeping of the worklist -/

theorem range'_glue (i a b : Nat) :
    List.range' i a ++ List.range' (i + a) b = List.range' i (a + b) := by
  have h := List.range'_append i a b 1
  rw [Nat.one_mul] at h
  rw [Nat.add_comm a b]
  exact h

theorem glue2 {s1 s2 : List Site} {i : Nat}
    (h1 : s1.map Site.idx = List.range' i s1.length)
    (h2 : s2.map Site.idx = List.range' (i + s1.length) s2.length) :
    (s1 ++ s2).map Site.idx = List.range' i (s1 ++ s2).length := by
  simp only [List.map_append, List.length_append, h1, h2]
  exact range'_glue i s1.length s2.length

theorem glue_next {s1 s2 : List Site} {i n1 n2 : Nat}
    (h1 : s1.map Site.idx = List.range' i s1.length) (e1 : n1 = i + s1.length)
    (h2 : s2.map Site.idx = List.range' n1 s2.length) (e2 : n2 = n1 + s2.length) :
    (s1 ++ s2).map Site.idx = List.range' i (s1 ++ s2).length
      ∧ n2 = i + (s1 ++ s2).length := by
  subst e1
  subst e2
  exact ⟨glue2 h1 h2, by simp only [List.length_append]; omega⟩

mutual
/-- The worklist slot indices handed out by a visit are consecutive,
starting at the incoming counter, in submission order. -/
theorem visitSp_idx (env : String → Option MacroFn) (dgen : DeriveGen) :
    ∀ fuel x i,
      (visitSp env dgen fuel x i).sites.map Site.idx
          = List.range' i (visitSp env dgen fuel x i).sites.length
        ∧ (visitSp env dgen fuel x i).next
          = i + (visitSp env dgen fuel x i).sites.length
  | 0, x, i => by simp [visitSp]
  | fuel + 1, .mk sp (.ident n), i => by simp [visitSp]
  | fuel + 1, .mk sp .error, i => by simp [visitSp]
  | fuel + 1, .mk sp (.hole k), i => by simp [visitSp]
  | fuel + 1, .mk sp (.MacroExpansion o r), i => by
    have ih := visitSp_idx env dgen fuel r i
    simpa [visitSp] using ih
  | fuel + 1, .mk sp (.letBindings rec bs b), i => by
    have ih1 := visitL_idx env dgen fuel bs i
    have ih2 := visitSp_idx env dgen fuel b (visitL env dgen fuel bs i).next
    simpa only [visitSp] using glue_next ih1.1 ih1.2 ih2.1 ih2.2
  | fuel + 1, .mk sp (.typeBindings tbs b), i => by
    by_cases hg : (deriveGenerated dgen tbs).isNil
    · have ih := visitSp_idx env dgen fuel b i
      simpa [visitSp, hg] using ih
    · have ih1 := visitL_idx env dgen fuel (deriveGenerated dgen tbs) i
      have ih2 := visitSp_idx env dgen fuel b
        (visitL env dgen fuel (deriveGenerated dgen tbs) i).next
      simpa only [visitSp, hg, Bool.false_eq_true, if_false]
        using glue_next ih1.1 ih1.2 ih2.1 ih2.2
  | fuel + 1, .mk sp (.app f iargs args), i => by
    have hwalk : ∀ g : SpExpr,
        ((visitSp env dgen fuel g i).sites
            ++ (visitL env dgen fuel iargs (visitSp env dgen fuel g i).next).sites
            ++ (visitL env dgen fuel args
                (visitL env dgen fuel iargs (visitSp env dgen fuel g i).next).next).sites).map
              Site.idx
          = List.range' i ((visitSp env dgen fuel g i).sites
              ++ (visitL env dgen fuel iargs (visitSp env dgen fuel g i).next).sites
              ++ (visitL env dgen fuel args
                  (visitL env dgen fuel iargs (visitSp env dgen fuel g i).next).next).sites).length
          ∧ (visitL env dgen fuel args
              (visitL env dgen fuel iargs (visitSp env dgen fuel g i).next).next).next
            = i + ((visitSp env dgen fuel g i).sites
                ++ (visitL env dgen fuel iargs (visitSp env dgen fuel g i).next).sites
                ++ (visitL env dgen fuel args
                    (visitL env dgen fuel iargs (visitSp env dgen fuel g i).next).next).sites).length := by
      intro g
      have ih1 := visitSp_idx env dgen fuel g i
      have ih2 := visitL_idx env dgen fuel iargs (visitSp env dgen fuel g i).next
      have ih3 := visitL_idx env dgen fuel args
        (visitL env dgen fuel iargs (visitSp env dgen fuel g i).next).next
      have g12 := glue_next ih1.1 ih1.2 ih2.1 ih2.2
      exact glue_next g12.1 g12.2 ih3.1 ih3.2
    match f with
    | .mk fsp (.ident idname) =>
      by_cases hb : endsWithBang idname
      · cases henv : env (idname.dropRight 1) with
        | some m => simp [visitSp, hb, henv]
        | none => simpa [visitSp, hb, henv] using hwalk (.mk fsp (.ident idname))
      · simpa [visitSp, hb] using hwalk (.mk fsp (.ident idname))
    | .mk fsp (.app g1 g2 g3) => simpa [visitSp] using hwalk (.mk fsp (.app g1 g2 g3))
    | .mk fsp (.letBindings r1 b1 b2) =>
      simpa [visitSp] using hwalk (.mk fsp (.letBindings r1 b1 b2))
    | .mk fsp (.typeBindings t1 b1) =>
      simpa [visitSp] using hwalk (.mk fsp (.typeBindings t1 b1))
    | .mk fsp (.MacroExpansion o1 r1) =>
      simpa [visitSp] using hwalk (.mk fsp (.MacroExpansion o1 r1))
    | .mk fsp .error => simpa [visitSp] using hwalk (.mk fsp .error)
    | .mk fsp (.hole k1) => simpa [visitSp] using hwalk (.mk fsp (.hole k1))
/-- List version of `visitSp_idx`. -/
theorem visitL_idx (env : String → Option MacroFn) (dgen : DeriveGen) :
    ∀ fuel xs i,
      (visitL env dgen fuel xs i).sites.map Site.idx
          = List.range' i (visitL env dgen fuel xs i).sites.length
        ∧ (visitL env dgen fuel xs i).next
          = i + (visitL env dgen fuel xs i).sites.length
  | 0, xs, i => by simp [visitL]
  | _fuel + 1, .nil, i => by simp [visitL]
  | fuel + 1, .cons h t, i => by
    have ih1 := visitSp_idx env dgen fuel h i
    have ih2 := visitL_idx env dgen fuel t (visitSp env dgen fuel h i).next
    simpa only [visitL] using glue_next ih1.1 ih1.2 ih2.1 ih2.2
end

/-- The slot indices of a collected worklist are pairwise distinct. -/
theorem sitesOf_pairwise_ne (env : String → Option MacroFn) (dgen : DeriveGen)
    (fuel : Nat) (e : SpExpr) :
    (sitesOf env dgen fuel e).Pairwise (fun a b => a.idx ≠ b.idx) := by
  have h := (visitSp_idx env dgen fuel e 0).1
  have hnd : ((sitesOf env dgen fuel e).map Site.idx).Nodup := by
    rw [sitesOf, h]
    exact List.nodup_range' 0 _
  exact (List.pairwise_map.mp hnd)

/-! ## Hole-freeness through the visit -/

theorem holeFreeL_append : ∀ xs ys : SpExprList,
    holeFreeL (xs.append ys) = (holeFreeL xs && holeFreeL ys)
  | .nil, ys => by simp [SpExprList.append, holeFreeL]
  | .cons h t, ys => by
    simp [SpExprList.append, holeFreeL, holeFreeL_append t ys, Bool.and_assoc]

theorem deriveGenerated_free (dgen : DeriveGen)
    (hdgen : ∀ a b l, dgen a b = Except.ok l → holeFreeL l = true) :
    ∀ bs : List TypeBinding, holeFreeL (deriveGenerated dgen bs) = true
  | [] => by simp [deriveGenerated, holeFreeL]
  | b :: bs => by
    rw [deriveGenerated, holeFreeL_append, Bool.and_eq_true]
    refine ⟨?_, deriveGenerated_free dgen hdgen bs⟩
    unfold deriveGenOne
    cases hf : findDerive b with
    | none => simp [holeFreeL]
    | some attr =>
      cases hd : dgen attr b with
      | ok xs => simp only [hd]; exact hdgen attr b xs hd
      | error e => simp [hd, holeFreeL]

mutual
/-- Every site collected from a hole-free tree has a hole-free
original node, and a hole-free replacement whenever its future
succeeds (given that macro outputs and derive generator outputs are
hole-free, which holds vacuously for actual source ASTs). -/
theorem visitSp_free (env : String → Option MacroFn) (dgen : DeriveGen)
    (henv : ∀ n f, env n = some f → ∀ args r, f args = Except.ok r → holeFreeSp r = true)
    (hdgen : ∀ a b l, dgen a b = Except.ok l → holeFreeL l = true) :
    ∀ fuel x i, holeFreeSp x = true →
      ∀ s ∈ (visitSp env dgen fuel x i).sites,
        holeFreeSp s.original = true ∧ ∀ r, s.result = Except.ok r → holeFreeSp r = true
  | 0, x, i => by simp [visitSp]
  | fuel + 1, .mk sp (.ident n), i => by simp [visitSp]
  | fuel + 1, .mk sp .error, i => by simp [visitSp]
  | fuel + 1, .mk sp (.hole k), i => by simp [visitSp]
  | fuel + 1, .mk sp (.MacroExpansion o r), i => by
    intro hx s hs
    have hr : holeFreeSp r = true := by
      simp only [holeFreeSp, holeFreeE, Bool.and_eq_true] at hx
      exact hx.2
    have hs' : s ∈ (visitSp env dgen fuel r i).sites := by
      simpa [visitSp] using hs
    exact visitSp_free env dgen henv hdgen fuel r i hr s hs'
  | fuel + 1, .mk sp (.letBindings rec bs b), i => by
    intro hx s hs
    simp only [holeFreeSp, holeFreeE, Bool.and_eq_true] at hx
    have hs' : s ∈ (visitL env dgen fuel bs i).sites
        ++ (visitSp env dgen fuel b (visitL env dgen fuel bs i).next).sites := by
      simpa [visitSp] using hs
    rcases List.mem_append.mp hs' with h1 | h2
    · exact visitL_free env dgen henv hdgen fuel bs i hx.1 s h1
    · exact visitSp_free env dgen henv hdgen fuel b _ hx.2 s h2
  | fuel + 1, .mk sp (.typeBindings tbs b), i => by
    intro hx s hs
    have hxb : holeFreeSp b = true := by
      simpa only [holeFreeSp, holeFreeE] using hx
    by_cases hg : (deriveGenerated dgen tbs).isNil
    · have hs' : s ∈ (visitSp env dgen fuel b i).sites := by
        simpa [visitSp, hg] using hs
      exact visitSp_free env dgen henv hdgen fuel b i hxb s hs'
    · have hs' : s ∈ (visitL env dgen fuel (deriveGenerated dgen tbs) i).sites
          ++ (visitSp env dgen fuel b
              (visitL env dgen fuel (deriveGenerated dgen tbs) i).next).sites := by
        simpa [visitSp, hg] using hs
      rcases List.mem_append.mp hs' with h1 | h2
      · exact visitL_free env dgen henv hdgen fuel (deriveGenerated dgen tbs) i
          (deriveGenerated_free dgen hdgen tbs) s h1
      · exact visitSp_free env dgen henv hdgen fuel b _ hxb s h2
  | fuel + 1, .mk sp (.app f iargs args), i => by
    intro hx s hs
    have hxp : holeFreeSp f = true ∧ holeFreeL iargs = true ∧ holeFreeL args = true := by
      simpa only [holeFreeSp, holeFreeE, Bool.and_eq_true, and_assoc] using hx
    have hwalk : ∀ g : SpExpr, holeFreeSp g = true →
        s ∈ (visitSp env dgen fuel g i).sites
            ++ (visitL env dgen fuel iargs (visitSp env dgen fuel g i).next).sites
            ++ (visitL env dgen fuel args
                (visitL env dgen fuel iargs (visitSp env dgen fuel g i).next).next).sites →
        holeFreeSp s.original = true ∧ ∀ r, s.result = Except.ok r → holeFreeSp r = true := by
      intro g hg hmem
      rcases List.mem_append.mp hmem with h12 | h3
      · rcases List.mem_append.mp h12 with h1 | h2
        · exact visitSp_free env dgen henv hdgen fuel g i hg s h1
        · exact visitL_free env dgen henv hdgen fuel iargs _ hxp.2.1 s h2
      · exact visitL_free env dgen henv hdgen fuel args _ hxp.2.2 s h3
    obtain ⟨fsp, fe⟩ := f
    cases fe with
    | ident idname =>
      by_cases hb : endsWithBang idname
      · cases henv' : env (idname.dropRight 1) with
        | some m =>
          have hs' : s = ⟨i, sp,
              .mk sp (.app (.mk fsp (.ident idname)) iargs args), m args⟩ := by
            simpa [visitSp, hb, henv'] using hs
          subst hs'
          exact ⟨hx, fun r hr => henv (idname.dropRight 1) m henv' args r hr⟩
        | none =>
          exact hwalk (.mk fsp (.ident idname)) hxp.1 (by simpa [visitSp, hb, henv'] using hs)
      · exact hwalk (.mk fsp (.ident idname)) hxp.1 (by simpa [visitSp, hb] using hs)
    | app g1 g2 g3 =>
      exact hwalk (.mk fsp (.app g1 g2 g3)) hxp.1 (by simpa [visitSp] using hs)
    | letBindings r1 b1 b2 =>
      exact hwalk (.mk fsp (.letBindings r1 b1 b2)) hxp.1 (by simpa [visitSp] using hs)
    | typeBindings t1 b1 =>
      exact hwalk (.mk fsp (.typeBindings t1 b1)) hxp.1 (by simpa [visitSp] using hs)
    | MacroExpansion o1 r1 =>
      exact hwalk (.mk fsp (.MacroExpansion o1 r1)) hxp.1 (by simpa [visitSp] using hs)
    | error =>
      exact hwalk (.mk fsp .error) hxp.1 (by simpa [visitSp] using hs)
    | hole k1 =>
      exact hwalk (.mk fsp (.hole k1)) hxp.1 (by simpa [visitSp] using hs)
/-- List version of `visitSp_free`. -/
theorem visitL_free (env : String → Option MacroFn) (dgen : DeriveGen)
    (henv : ∀ n f, env n = some f → ∀ args r, f args = Except.ok r → holeFreeSp r = true)
    (hdgen : ∀ a b l, dgen a b = Except.ok l → holeFreeL l = true) :
    ∀ fuel xs i, holeFreeL xs = true →
      ∀ s ∈ (visitL env dgen fuel xs i).sites,
        holeFreeSp s.original = true ∧ ∀ r, s.result = Except.ok r → holeFreeSp r = true
  | 0, xs, i => by simp [visitL]
  | _fuel + 1, .nil, i => by simp [visitL]
  | fuel + 1, .cons h t, i => by
    intro hx s hs
    simp only [holeFreeL, Bool.and_eq_true] at hx
    have hs' : s ∈ (visitSp env dgen fuel h i).sites
        ++ (visitL env dgen fuel t (visitSp env dgen fuel h i).next).sites := by
      simpa [visitL] using hs
    rcases List.mem_append.mp hs' with h1 | h2
    · exact visitSp_free env dgen henv hdgen fuel h i hx.1 s h1
    · exact visitL_free env dgen henv hdgen fuel t _ hx.2 s h2
end

/-! ## The completion phase commutes across completion orders -/

/-- The value written at a completed site is hole-free whenever the
site record is (established by `visitSp_free`). -/
theorem siteFill_free {s : Site} (ho : holeFreeSp s.original = true)
    (hr : ∀ r, s.result = Except.ok r → holeFreeSp r = true) :
    holeFreeSp (siteFill s) = true := by
  obtain ⟨idx, sp, orig, res⟩ := s
  cases res with
  | ok r =>
    obtain ⟨rs, rv⟩ := r
    have := hr (.mk rs rv) rfl
    simp only [holeFreeSp] at this
    simpa [siteFill, holeFreeSp, holeFreeE, SpExpr.value] using ⟨ho, this⟩
  | error e => simpa [siteFill, holeFreeSp, holeFreeE] using ho

theorem filterMap_getElem_range {α : Type _} (l : List α) :
    (List.range l.length).filterMap (fun i => l[i]?) = l := by
  induction l with
  | nil => simp
  | cons h t ih =>
    rw [List.length_cons, List.range_succ_eq_map, List.filterMap_cons]
    simp only [List.getElem?_cons_zero, List.filterMap_map, Function.comp_def,
      List.getElem?_cons_succ]
    exact congrArg (h :: ·) ih

/-- In a worklist with pairwise-distinct slot indices, looking a
member site up by its own index finds exactly that site. -/
theorem find?_idx_self : ∀ {sites : List Site}, (sites.map Site.idx).Nodup →
    ∀ {s : Site}, s ∈ sites → sites.find? (fun q => q.idx == s.idx) = some s := by
  intro sites
  induction sites with
  | nil => intro _ s hs; cases hs
  | cons a rest ih =>
    intro hnd s hs
    simp only [List.map_cons, List.nodup_cons] at hnd
    rcases List.mem_cons.mp hs with h | h
    · subst h
      simp [List.find?]
    · have hne : (a.idx == s.idx) = false := by
        simp only [beq_eq_false_iff_ne, ne_eq]
        intro he
        exact hnd.1 (he ▸ List.mem_map_of_mem Site.idx h)
      rw [List.find?, hne]
      exact ih hnd.2 h

/-- Overwrites of two distinct slots with hole-free values commute:
this is why the per-site tree mutations may run in any completion
order. -/
theorem fill_single_comm {j k : Nat} (hjk : j ≠ k) {v w : SpExpr}
    (hv : holeFreeSp v = true) (hw : holeFreeSp w = true) (t : SpExpr) :
    fillSp (single k w) (fillSp (single j v) t)
      = fillSp (single j v) (fillSp (single k w) t) := by
  rw [fillSp_comp, fillSp_comp]
  have hσ : compSubst (single k w) (single j v) = compSubst (single j v) (single k w) := by
    funext m
    simp only [compSubst, single]
    by_cases h1 : m = j
    · subst h1
      simp [hjk, fillSp_holeFree _ v hv]
    · by_cases h2 : m = k
      · subst h2
        simp [h1, fillSp_holeFree _ w hw]
      · simp [h1, h2]
  rw [hσ]

/-- The simultaneous substitution that the whole completion phase
amounts to: each slot receives its own site's completion value. -/
def siteSubst (sites : List Site) : Nat → Option SpExpr :=
  fun k => (sites.find? (fun s => s.idx == k)).map siteFill

/-- Applying the completions sequentially (in any order in which the
slot indices are pairwise distinct and the written values hole-free;
here in submission order) equals the simultaneous per-slot
substitution. -/
theorem applyCompleted_eq_subst :
    ∀ (sites : List Site) (t : SpExpr),
      (sites.map Site.idx).Nodup →
      (∀ s ∈ sites, holeFreeSp (siteFill s) = true) →
      applyCompleted t sites = fillSp (siteSubst sites) t
  | [], t, _, _ => by
    simp only [applyCompleted, List.foldl_nil, siteSubst, List.find?_nil, Option.map_none']
    exact (fillSp_none t).symm
  | s :: rest, t, hnd, hfree => by
    simp only [applyCompleted, List.foldl_cons]
    have hnd' : (rest.map Site.idx).Nodup := by
      simp only [List.map_cons, List.nodup_cons] at hnd
      exact hnd.2
    have hrec := applyCompleted_eq_subst rest (fillSp (single s.idx (siteFill s)) t) hnd'
      (fun q hq => hfree q (List.mem_cons_of_mem s hq))
    rw [applyCompleted] at hrec
    rw [hrec, fillSp_comp]
    congr 1
    funext m
    by_cases hm : m = s.idx
    · subst hm
      have hfs := fillSp_holeFree (siteSubst rest) (siteFill s)
        (hfree s (List.mem_cons_self s rest))
      simp [compSubst, single, siteSubst, hfs, List.find?_cons_of_pos]
    · have hm' : (s.idx == m) = false := by
        simp only [beq_eq_false_iff_ne, ne_eq]
        exact fun he => hm he.symm
      simp [compSubst, single, hm, siteSubst, List.find?_cons_of_neg, hm']

/-- Claim C1 (theorem): `MacroExpander::run` drives the per-site
futures in an arbitrary completion order, but the run's result — the
post-expansion tree together with the accumulated error list — is the
one obtained by applying the per-site results in original depth-first
traversal (submission) order, for every completion order.  The
hypotheses ask for a hole-free input tree and hole-free macro/derive
outputs (true of every actual source AST), and that `order` is a
permutation of the site indices, i.e. that every outstanding future
completes exactly once. -/
theorem run_result_independent_of_completion_order
    (env : String → Option MacroFn) (dgen : DeriveGen) (fuel : Nat) (e : SpExpr)
    (order : List Nat)
    (hfree : holeFreeSp e = true)
    (henv : ∀ n f, env n = some f → ∀ args r, f args = Except.ok r → holeFreeSp r = true)
    (hdgen : ∀ a b l, dgen a b = Except.ok l → holeFreeL l = true)
    (horder : order.Perm (List.range (sitesOf env dgen fuel e).length)) :
    runExpander env dgen fuel order e
      = runExpander env dgen fuel (List.range (sitesOf env dgen fuel e).length) e := by
  have hsel : (List.range (sitesOf env dgen fuel e).length).filterMap
      (fun i => (sitesOf env dgen fuel e)[i]?) = sitesOf env dgen fuel e :=
    filterMap_getElem_range _
  have hperm : (order.filterMap (fun i => (sitesOf env dgen fuel e)[i]?)).Perm
      (sitesOf env dgen fuel e) := by
    have h := List.Perm.filterMap (fun i => (sitesOf env dgen fuel e)[i]?) horder
    rwa [hsel] at h
  have hpw := sitesOf_pairwise_ne env dgen fuel e
  have hfill : ∀ s ∈ sitesOf env dgen fuel e, holeFreeSp (siteFill s) = true := by
    intro s hs
    obtain ⟨ho, hr⟩ := visitSp_free env dgen henv hdgen fuel e 0 hfree s hs
    exact siteFill_free ho hr
  have hcomm : ∀ x ∈ order.filterMap (fun i => (sitesOf env dgen fuel e)[i]?),
      ∀ y ∈ order.filterMap (fun i => (sitesOf env dgen fuel e)[i]?),
      ∀ z : SpExpr,
        fillSp (single y.idx (siteFill y)) (fillSp (single x.idx (siteFill x)) z)
          = fillSp (single x.idx (siteFill x)) (fillSp (single y.idx (siteFill y)) z) := by
    intro x hx y hy z
    by_cases hxy : x = y
    · subst hxy; rfl
    · have hx' : x ∈ sitesOf env dgen fuel e := hperm.subset hx
      have hy' : y ∈ sitesOf env dgen fuel e := hperm.subset hy
      have hsym : Symmetric (fun a b : Site => a.idx ≠ b.idx) := fun _ _ h => h.symm
      have hne : x.idx ≠ y.idx := hpw.forall hsym hx' hy' hxy
      exact fill_single_comm hne (hfill x hx') (hfill y hy') z
  have htree := @List.Perm.foldl_eq' SpExpr Site
    (fun t s => fillSp (single s.idx (siteFill s)) t) _ _ hperm hcomm
    (visitSp env dgen fuel e 0).tree
  show (applyCompleted (visitSp env dgen fuel e 0).tree
          (order.filterMap (fun i => (sitesOf env dgen fuel e)[i]?)), _)
      = (applyCompleted (visitSp env dgen fuel e 0).tree
          ((List.range (sitesOf env dgen fuel e).length).filterMap
            (fun i => (sitesOf env dgen fuel e)[i]?)), _)
  rw [hsel]
  exact congrArg (fun t => (t, (visitSp env dgen fuel e 0).errs
    ++ siteErrors (visitSp env dgen fuel e 0).sites)) htree

/-! ## Concrete scenarios used by the witnesses -/

/-- A registry with one macro `m` whose expansion succeeds. -/
def demoEnv : String → Option MacroFn :=
  fun n => if n = "m" then some (fun _ => .ok (.mk ⟨90, 91⟩ (.ident "expanded"))) else none

/-- A derive generator that always fails (no derives succeed). -/
def demoDgen : DeriveGen := fun _ _ => .error (Error.message "no derives")

/-- A call node `m! ()` at the given spans. -/
def demoCall (sp fsp : Span) : SpExpr :=
  .mk sp (.app (.mk fsp (.ident "m!")) .nil .nil)

/-- A tree with two macro invocation sites, in two sibling bindings. -/
def demoTree : SpExpr :=
  .mk ⟨0, 10⟩ (.letBindings false
    (.cons (demoCall ⟨1, 2⟩ ⟨1, 1⟩) (.cons (demoCall ⟨3, 4⟩ ⟨3, 3⟩) .nil))
    (.mk ⟨5, 6⟩ (.ident "x")))

theorem demoEnv_free : ∀ n f, demoEnv n = some f →
    ∀ args r, f args = Except.ok r → holeFreeSp r = true := by
  intro n f hn args r hr
  by_cases h : n = "m"
  · subst h
    simp only [demoEnv, if_true, eq_self_iff_true, Option.some.injEq] at hn
    subst hn
    simp only [Except.ok.injEq] at hr
    subst hr
    decide
  · simp [demoEnv, h] at hn

theorem demoDgen_free : ∀ a b l, demoDgen a b = Except.ok l → holeFreeL l = true := by
  intro a b l h
  simp [demoDgen] at h

/-- Witness for claim C1: a two-site tree run with the reversed
completion order `[1, 0]` yields the submission-order result. -/
theorem run_result_independent_of_completion_order_witness :
    ([1, 0] : List Nat).Perm (List.range (sitesOf demoEnv demoDgen 5 demoTree).length) ∧
    runExpander demoEnv demoDgen 5 [1, 0] demoTree
      = runExpander demoEnv demoDgen 5
          (List.range (sitesOf demoEnv demoDgen 5 demoTree).length) demoTree := by
  have hlen : (sitesOf demoEnv demoDgen 5 demoTree).length = 2 := rfl
  constructor
  · rw [hlen]
    decide
  · exact run_result_independent_of_completion_order demoEnv demoDgen 5 demoTree [1, 0]
      (by decide) demoEnv_free demoDgen_free (by rw [hlen]; decide)

/-! ## Failing sites (claim C3) -/

/-- A registry with a failing macro `f` and a succeeding macro `m`. -/
def mixEnv : String → Option MacroFn :=
  fun n =>
    if n = "f" then some (fun _ => .error (Error.message "boom"))
    else if n = "m" then some (fun _ => .ok (.mk ⟨90, 91⟩ (.ident "expanded")))
    else none

/-- The failing invocation site `f! ()`. -/
def sFailOriginal : SpExpr := .mk ⟨1, 3⟩ (.app (.mk ⟨1, 2⟩ (.ident "f!")) .nil .nil)

/-- The succeeding sibling invocation site `m! ()`. -/
def sOkOriginal : SpExpr := .mk ⟨4, 6⟩ (.app (.mk ⟨4, 5⟩ (.ident "m!")) .nil .nil)

/-- A tree holding the failing site and its succeeding sibling. -/
def mixTree : SpExpr :=
  .mk ⟨0, 10⟩ (.letBindings false
    (.cons sFailOriginal (.cons sOkOriginal .nil))
    (.mk ⟨7, 8⟩ (.ident "x")))

theorem mixEnv_free : ∀ n f, mixEnv n = some f →
    ∀ args r, f args = Except.ok r → holeFreeSp r = true := by
  intro n f hn args r hr
  by_cases h1 : n = "f"
  · subst h1
    simp only [mixEnv, if_true, eq_self_iff_true, Option.some.injEq] at hn
    subst hn
    simp at hr
  · by_cases h2 : n = "m"
    · subst h2
      simp only [mixEnv, h1, if_false, if_true, eq_self_iff_true, Option.some.injEq,
        reduceIte] at hn
      subst hn
      simp only [Except.ok.injEq] at hr
      subst hr
      decide
    · simp [mixEnv, h1, h2] at hn

/-- Counterexample for claim C3: at a site whose expansion future
fails, the node is not replaced by a bare error placeholder
expression; `replace_expr` always installs a `MacroExpansion` wrapper,
here with the error placeholder in its replacement slot. -/
theorem run_failing_site_counterexample :
    runExpander mixEnv demoDgen 5 [0] sFailOriginal
      = (.mk ⟨1, 3⟩ (.MacroExpansion sFailOriginal (.mk ⟨1, 3⟩ .error)),
         [(⟨1, 3⟩, Error.message "boom")]) ∧
    (SpExpr.mk ⟨1, 3⟩ (.MacroExpansion sFailOriginal (.mk ⟨1, 3⟩ .error)))
      ≠ .mk ⟨1, 3⟩ .error := by
  exact ⟨rfl, by decide⟩

/-- Claim C3 (amended theorem): for every site whose expansion future
fails, after the run completes (here in submission order, which by C1
is what every completion order produces) the site's slot holds a
`MacroExpansion` wrapper around the original node whose replacement
slot is the `Expr::Error(None)` placeholder; the failure, spanned with
the site's span, is appended to the accumulated error list; and every
sibling site with a successful expansion has its slot hold exactly the
wrapper of its own replacement, independent of the failing site. -/
theorem run_failing_site_isolated
    (env : String → Option MacroFn) (dgen : DeriveGen) (fuel : Nat) (e : SpExpr)
    (hfree : holeFreeSp e = true)
    (henv : ∀ n f, env n = some f → ∀ args r, f args = Except.ok r → holeFreeSp r = true)
    (hdgen : ∀ a b l, dgen a b = Except.ok l → holeFreeL l = true)
    {s : Site} (hs : s ∈ sitesOf env dgen fuel e)
    {err : Error} (herr : s.result = Except.error err) :
    runExpander env dgen fuel (List.range (sitesOf env dgen fuel e).length) e
      = (fillSp (siteSubst (sitesOf env dgen fuel e)) (visitSp env dgen fuel e 0).tree,
         (visitSp env dgen fuel e 0).errs ++ siteErrors (sitesOf env dgen fuel e))
    ∧ siteSubst (sitesOf env dgen fuel e) s.idx
        = some (.mk s.span (.MacroExpansion s.original (.mk s.span .error)))
    ∧ (s.span, err) ∈ siteErrors (sitesOf env dgen fuel e)
    ∧ (∀ s' ∈ sitesOf env dgen fuel e, ∀ rep, s'.result = Except.ok rep →
        siteSubst (sitesOf env dgen fuel e) s'.idx
          = some (.mk s'.span (.MacroExpansion s'.original (.mk s'.span rep.value)))) := by
  have hnd : ((sitesOf env dgen fuel e).map Site.idx).Nodup := by
    rw [sitesOf, (visitSp_idx env dgen fuel e 0).1]
    exact List.nodup_range' 0 _
  have hfill : ∀ q ∈ sitesOf env dgen fuel e, holeFreeSp (siteFill q) = true := by
    intro q hq
    obtain ⟨ho, hr⟩ := visitSp_free env dgen henv hdgen fuel e 0 hfree q hq
    exact siteFill_free ho hr
  refine ⟨?_, ?_, ?_, ?_⟩
  · show (applyCompleted (visitSp env dgen fuel e 0).tree
        ((List.range (sitesOf env dgen fuel e).length).filterMap
          (fun i => (sitesOf env dgen fuel e)[i]?)), _) = _
    rw [filterMap_getElem_range]
    exact congrArg (fun t => (t, (visitSp env dgen fuel e 0).errs
      ++ siteErrors (sitesOf env dgen fuel e)))
      (applyCompleted_eq_subst (sitesOf env dgen fuel e) _ hnd hfill)
  · rw [siteSubst, find?_idx_self hnd hs, Option.map_some']
    obtain ⟨idx, sp, orig, res⟩ := s
    cases res with
    | ok r => cases herr
    | error e0 => simp [siteFill]
  · exact List.mem_filterMap.mpr ⟨s, hs, by rw [herr]⟩
  · intro s' hs' rep hrep
    rw [siteSubst, find?_idx_self hnd hs', Option.map_some']
    obtain ⟨idx, sp, orig, res⟩ := s'
    cases res with
    | ok r =>
      simp only [Except.ok.injEq] at hrep
      subst hrep
      simp [siteFill]
    | error e0 => cases hrep

/-- Witness for claim C3: in the two-site tree, the failing site's
slot receives the error-placeholder wrapper and its spanned failure is
accumulated, while the succeeding sibling receives its replacement. -/
theorem run_failing_site_isolated_witness :
    siteSubst (sitesOf mixEnv demoDgen 6 mixTree) 0
        = some (.mk ⟨1, 3⟩ (.MacroExpansion sFailOriginal (.mk ⟨1, 3⟩ .error)))
      ∧ ((⟨1, 3⟩ : Span), Error.message "boom") ∈ siteErrors (sitesOf mixEnv demoDgen 6 mixTree)
      ∧ siteSubst (sitesOf mixEnv demoDgen 6 mixTree) 1
        = some (.mk ⟨4, 6⟩ (.MacroExpansion sOkOriginal
            (.mk ⟨4, 6⟩ (.ident "expanded")))) := by
  have hsites : sitesOf mixEnv demoDgen 6 mixTree
      = [⟨0, ⟨1, 3⟩, sFailOriginal, .error (Error.message "boom")⟩,
         ⟨1, ⟨4, 6⟩, sOkOriginal, .ok (.mk ⟨90, 91⟩ (.ident "expanded"))⟩] := rfl
  have h := @run_failing_site_isolated mixEnv demoDgen 6 mixTree (by decide)
    mixEnv_free demoDgen_free
    ⟨0, ⟨1, 3⟩, sFailOriginal, .error (Error.message "boom")⟩
    (by rw [hsites]; exact List.mem_cons_self _ _)
    (Error.message "boom") rfl
  refine ⟨h.2.1, h.2.2.1, ?_⟩
  have h4 := h.2.2.2 ⟨1, ⟨4, 6⟩, sOkOriginal, .ok (.mk ⟨90, 91⟩ (.ident "expanded"))⟩
    (by rw [hsites]; exact List.mem_cons_of_mem _ (List.mem_cons_self _ _))
    (.mk ⟨90, 91⟩ (.ident "expanded")) rfl
  exact h4

/-! ## Derive processing at type binding groups (claim C7) -/

theorem SpExprList_append_assoc : ∀ a b c : SpExprList,
    (a.append b).append c = a.append (b.append c)
  | .nil, _, _ => rfl
  | .cons x xs, b, c => by
    simp [SpExprList.append, SpExprList_append_assoc xs b c]

/-- Generation is per-binding: splitting the group splits the
generated bindings. -/
theorem deriveGenerated_append (dgen : DeriveGen) : ∀ l1 l2 : List TypeBinding,
    deriveGenerated dgen (l1 ++ l2)
      = (deriveGenerated dgen l1).append (deriveGenerated dgen l2)
  | [], l2 => by simp [deriveGenerated, SpExprList.append]
  | b :: bs, l2 => by
    simp [deriveGenerated, deriveGenerated_append dgen bs l2, SpExprList_append_assoc]

/-- Error recording is per-binding as well. -/
theorem deriveErrors_append (dgen : DeriveGen) : ∀ l1 l2 : List TypeBinding,
    deriveErrors dgen (l1 ++ l2) = deriveErrors dgen l1 ++ deriveErrors dgen l2
  | [], l2 => by simp [deriveErrors]
  | b :: bs, l2 => by simp [deriveErrors, deriveErrors_append dgen bs l2]

/-- First derive attribute of the counterexample binding. -/
def c7attr1 : Attribute := ⟨"derive", some "One"⟩

/-- Second derive attribute of the counterexample binding. -/
def c7attr2 : Attribute := ⟨"derive", some "Two"⟩

/-- A type binding carrying two `derive` attributes. -/
def c7bind : TypeBinding := ⟨(⟨11, 12⟩, "T"), [c7attr1, c7attr2]⟩

/-- A generator producing a distinct binding for each of the two
attributes. -/
def c7gen : DeriveGen := fun a _ =>
  if a.arguments = some "One" then .ok (.cons (.mk ⟨20, 21⟩ (.ident "gen_one")) .nil)
  else .ok (.cons (.mk ⟨22, 23⟩ (.ident "gen_two")) .nil)

/-- Counterexample for claim C7: with two `derive` attributes attached
to one binding, only the first triggers generation
(`attributes.iter().find(..)`); the second attribute's generated
binding is absent from the injected group. -/
theorem derive_every_attribute_counterexample :
    deriveGenerated c7gen [c7bind] = .cons (.mk ⟨20, 21⟩ (.ident "gen_one")) .nil
    ∧ c7gen c7attr2 c7bind = .ok (.cons (.mk ⟨22, 23⟩ (.ident "gen_two")) .nil)
    ∧ findDerive c7bind = some c7attr1
    ∧ (SpExprList.cons (.mk ⟨20, 21⟩ (.ident "gen_one")) .nil)
        ≠ .cons (.mk ⟨20, 21⟩ (.ident "gen_one"))
            (.cons (.mk ⟨22, 23⟩ (.ident "gen_two")) .nil) := by
  exact ⟨rfl, rfl, rfl, by decide⟩

/-- Claim C7 (amended theorem): at a type-binding-group node the
*first* attached `derive` attribute of each binding triggers
synchronous generation; the generated bindings of all bindings are
injected, in group order, as a recursive `LetBindings` group ahead of
the group's body (which the traversal then walks); a generation
failure is recorded with that binding's name span and contributes no
bindings, and both generation and error recording split per binding,
so a failing binding never affects its siblings' generation. -/
theorem typeBindings_derive_processing
    (env : String → Option MacroFn) (dgen : DeriveGen) (fuel : Nat) (sp : Span)
    (tbs : List TypeBinding) (b : SpExpr) (i : Nat)
    (hne : (deriveGenerated dgen tbs).isNil = false) :
    visitSp env dgen (fuel + 1) (.mk sp (.typeBindings tbs b)) i
      = ⟨.mk sp (.typeBindings tbs (.mk ⟨0, 0⟩ (.letBindings true
            (visitL env dgen fuel (deriveGenerated dgen tbs) i).tree
            (visitSp env dgen fuel b
              (visitL env dgen fuel (deriveGenerated dgen tbs) i).next).tree))),
         (visitSp env dgen fuel b
            (visitL env dgen fuel (deriveGenerated dgen tbs) i).next).next,
         (visitL env dgen fuel (deriveGenerated dgen tbs) i).sites
           ++ (visitSp env dgen fuel b
                (visitL env dgen fuel (deriveGenerated dgen tbs) i).next).sites,
         deriveErrors dgen tbs
           ++ ((visitL env dgen fuel (deriveGenerated dgen tbs) i).errs
             ++ (visitSp env dgen fuel b
                  (visitL env dgen fuel (deriveGenerated dgen tbs) i).next).errs)⟩
    ∧ (∀ l1 l2, deriveGenerated dgen (l1 ++ l2)
          = (deriveGenerated dgen l1).append (deriveGenerated dgen l2))
    ∧ (∀ l1 l2, deriveErrors dgen (l1 ++ l2)
          = deriveErrors dgen l1 ++ deriveErrors dgen l2)
    ∧ (∀ b0 attr err, findDerive b0 = some attr → dgen attr b0 = .error err →
          deriveGenOne dgen b0 = .nil ∧ deriveErrOne dgen b0 = [(b0.name.1, err)])
    ∧ (∀ b0 attr xs, findDerive b0 = some attr → dgen attr b0 = .ok xs →
          deriveGenOne dgen b0 = xs ∧ deriveErrOne dgen b0 = [])
    ∧ (∀ b0, findDerive b0 = b0.attributes.find? (fun a => a.name == "derive")) := by
  refine ⟨?_, deriveGenerated_append dgen, deriveErrors_append dgen, ?_, ?_, fun _ => rfl⟩
  · simp [visitSp, hne]
  · intro b0 attr err hf hd
    exact ⟨by simp [deriveGenOne, hf, hd], by simp [deriveErrOne, hf, hd]⟩
  · intro b0 attr xs hf hd
    exact ⟨by simp [deriveGenOne, hf, hd], by simp [deriveErrOne, hf, hd]⟩

/-- A binding whose (single) derive attribute fails to generate. -/
def c7bindFail : TypeBinding := ⟨(⟨30, 31⟩, "F"), [⟨"derive", some "Bad"⟩]⟩

/-- A sibling binding whose derive attribute generates one binding. -/
def c7goodBind : TypeBinding := ⟨(⟨32, 33⟩, "G"), [⟨"derive", some "Good"⟩]⟩

/-- A generator failing on the `Bad` attribute and succeeding on the
others. -/
def c7genMix : DeriveGen := fun a _ =>
  if a.arguments = some "Bad" then .error (Error.message "derive failed")
  else .ok (.cons (.mk ⟨40, 41⟩ (.ident "generated")) .nil)

/-- Witness for claim C7: the failing binding is recorded against its
name span, while its sibling's generation is unaffected. -/
theorem typeBindings_derive_processing_witness :
    deriveErrOne c7genMix c7bindFail = [((⟨30, 31⟩ : Span), Error.message "derive failed")]
    ∧ deriveGenOne c7genMix c7goodBind = .cons (.mk ⟨40, 41⟩ (.ident "generated")) .nil := by
  have h := typeBindings_derive_processing demoEnv c7genMix 2 ⟨50, 60⟩
    [c7bindFail, c7goodBind] (.mk ⟨55, 56⟩ (.ident "x")) 0 rfl
  exact ⟨(h.2.2.2.1 c7bindFail ⟨"derive", some "Bad"⟩ (Error.message "derive failed")
            rfl rfl).2,
         (h.2.2.2.2.1 c7goodBind ⟨"derive", some "Good"⟩
            (.cons (.mk ⟨40, 41⟩ (.ident "generated")) .nil) rfl rfl).1⟩

/-! ## Macro lookup at call nodes (claim C8) -/

/-- A call node `m! {imp} ()` supplying an implicit argument. -/
def c8Node : SpExpr :=
  .mk ⟨70, 80⟩ (.app (.mk ⟨70, 71⟩ (.ident "m!"))
    (.cons (.mk ⟨72, 73⟩ (.ident "imp")) .nil)
    .nil)

/-- Counterexample for claim C8: at a call node whose callee ends in
the marker but which *does* carry implicit arguments, the macro is
still looked up and its expansion initiated (a worklist site is
registered); the implicit-argument error is recorded in addition. -/
theorem markerLookup_counterexample :
    (SpExprList.cons (.mk ⟨72, 73⟩ (.ident "imp")) .nil) ≠ .nil
    ∧ sitesOf demoEnv demoDgen 3 c8Node
        = [⟨0, ⟨70, 80⟩, c8Node, .ok (.mk ⟨90, 91⟩ (.ident "expanded"))⟩]
    ∧ (runExpander demoEnv demoDgen 3 [0] c8Node).2
        = [(⟨70, 80⟩, Error.message implicitArgsMessage)] := by
  exact ⟨by decide, rfl, rfl⟩

/-- Claim C8 (amended theorem): at a call node whose callee is an
identifier ending in the macro marker, the macro is looked up under
the name with the marker stripped regardless of implicit arguments;
if found, the site is registered (and not descended into) with the
implicit-argument error recorded against the site's span exactly when
implicit arguments are present; if not found, the children are walked
with the same error recorded first under the same condition; with no
marker, no lookup and no error happen at the node and the children
are walked. -/
theorem markerLookup_characterization
    (env : String → Option MacroFn) (dgen : DeriveGen) (fuel : Nat)
    (sp fsp : Span) (idname : String) (iargs args : SpExprList) (i : Nat) :
    (∀ m, endsWithBang idname = true → env (idname.dropRight 1) = some m →
      visitSp env dgen (fuel + 1) (.mk sp (.app (.mk fsp (.ident idname)) iargs args)) i
        = ⟨.mk sp (.hole i), i + 1,
           [⟨i, sp, .mk sp (.app (.mk fsp (.ident idname)) iargs args), m args⟩],
           if iargs.isNil then [] else [(sp, Error.message implicitArgsMessage)]⟩)
    ∧ (endsWithBang idname = true → env (idname.dropRight 1) = none →
      visitSp env dgen (fuel + 1) (.mk sp (.app (.mk fsp (.ident idname)) iargs args)) i
        = ⟨.mk sp (.app
             (visitSp env dgen fuel (.mk fsp (.ident idname)) i).tree
             (visitL env dgen fuel iargs
               (visitSp env dgen fuel (.mk fsp (.ident idname)) i).next).tree
             (visitL env dgen fuel args
               (visitL env dgen fuel iargs
                 (visitSp env dgen fuel (.mk fsp (.ident idname)) i).next).next).tree),
           (visitL env dgen fuel args
             (visitL env dgen fuel iargs
               (visitSp env dgen fuel (.mk fsp (.ident idname)) i).next).next).next,
           (visitSp env dgen fuel (.mk fsp (.ident idname)) i).sites
             ++ (visitL env dgen fuel iargs
                  (visitSp env dgen fuel (.mk fsp (.ident idname)) i).next).sites
             ++ (visitL env dgen fuel args
                  (visitL env dgen fuel iargs
                    (visitSp env dgen fuel (.mk fsp (.ident idname)) i).next).next).sites,
           (if iargs.isNil then [] else [(sp, Error.message implicitArgsMessage)])
             ++ ((visitSp env dgen fuel (.mk fsp (.ident idname)) i).errs
               ++ (visitL env dgen fuel iargs
                    (visitSp env dgen fuel (.mk fsp (.ident idname)) i).next).errs
               ++ (visitL env dgen fuel args
                    (visitL env dgen fuel iargs
                      (visitSp env dgen fuel (.mk fsp (.ident idname)) i).next).next).errs)⟩)
    ∧ (endsWithBang idname = false →
      visitSp env dgen (fuel + 1) (.mk sp (.app (.mk fsp (.ident idname)) iargs args)) i
        = ⟨.mk sp (.app
             (visitSp env dgen fuel (.mk fsp (.ident idname)) i).tree
             (visitL env dgen fuel iargs
               (visitSp env dgen fuel (.mk fsp (.ident idname)) i).next).tree
             (visitL env dgen fuel args
               (visitL env dgen fuel iargs
                 (visitSp env dgen fuel (.mk fsp (.ident idname)) i).next).next).tree),
           (visitL env dgen fuel args
             (visitL env dgen fuel iargs
               (visitSp env dgen fuel (.mk fsp (.ident idname)) i).next).next).next,
           (visitSp env dgen fuel (.mk fsp (.ident idname)) i).sites
             ++ (visitL env dgen fuel iargs
                  (visitSp env dgen fuel (.mk fsp (.ident idname)) i).next).sites
             ++ (visitL env dgen fuel args
                  (visitL env dgen fuel iargs
                    (visitSp env dgen fuel (.mk fsp (.ident idname)) i).next).next).sites,
           (visitSp env dgen fuel (.mk fsp (.ident idname)) i).errs
             ++ (visitL env dgen fuel iargs
                  (visitSp env dgen fuel (.mk fsp (.ident idname)) i).next).errs
             ++ (visitL env dgen fuel args
                  (visitL env dgen fuel iargs
                    (visitSp env dgen fuel (.mk fsp (.ident idname)) i).next).next).errs⟩) := by
  refine ⟨?_, ?_, ?_⟩
  · intro m hb henv
    simp [visitSp, hb, henv]
  · intro hb henv
    simp [visitSp, hb, henv]
  · intro hb
    simp [visitSp, hb]

/-- Witness for claim C8: the implicit-argument-carrying call is still
registered as a site with the macro's expansion, with the error
pushed. -/
theorem markerLookup_characterization_witness :
    visitSp demoEnv demoDgen 3 c8Node 0
      = ⟨.mk ⟨70, 80⟩ (.hole 0), 1,
         [⟨0, ⟨70, 80⟩, c8Node, .ok (.mk ⟨90, 91⟩ (.ident "expanded"))⟩],
         [(⟨70, 80⟩, Error.message implicitArgsMessage)]⟩ := by
  have h := (markerLookup_characterization demoEnv demoDgen 2 ⟨70, 80⟩ ⟨70, 71⟩ "m!"
      (.cons (.mk ⟨72, 73⟩ (.ident "imp")) .nil) .nil 0).1
      (fun _ => .ok (.mk ⟨90, 91⟩ (.ident "expanded"))) rfl rfl
  exact h

/-! ## The name-resolution adapter of `query.rs`

`CompilerDatabase::get_global` / `get_binding` resolve dotted names
against the realized `Global`s.  A dotted name is modelled by its list
of `.`-separated segments (`Name::module` drops the last segment,
`Name::components` iterates them); the leading-`@` trimming of
`get_global` is outside the claims and not modelled.  `ArcType` is
modelled by `VmType` (records with their `row_iter` fields, aliases
unfolded by `resolve::remove_aliases`, primitives), runtime values by
`VmValue` (`ValueRef::Data` with `get_variant` indexing). -/

/-- The types the field walk distinguishes. -/
inductive VmType : Type where
  | record (fields : List (String × VmType))
  | alias (name : String) (target : VmType)
  | prim (name : String)

/-- Runtime values (`ValueRef`): structured data or anything else. -/
inductive VmValue : Type where
  | data (fields : List VmValue)
  | prim (n : Nat)

/-- `vm::Error` variants produced by the adapter. -/
inductive VmError : Type where
  | undefinedBinding (name : List String)
  | undefinedField (typ : VmType) (field : String)
  | message (s : String)

/-- A realized `Global` (the `metadata` field is not needed by the
claims and omitted). -/
structure Global where
  id : String
  typ : VmType
  value : VmValue

/-- `resolve::remove_aliases` (external collaborator): unfold
top-level aliases. -/
def removeAliases : VmType → VmType
  | .alias _ t => removeAliases t
  | t => t

/-- `typ.row_iter()`: the record fields; empty on non-records. -/
def rowFields : VmType → List (String × VmType)
  | .record fs => fs
  | _ => []

/-- `row_iter().enumerate().find(|(_, field)| field.name == name)`,
starting the count at `j`. -/
def findFieldIdxAux (name : String) : Nat → List (String × VmType) → Option (Nat × VmType)
  | _, [] => none
  | j, (n, t) :: rest =>
    if n = name then some (j, t) else findFieldIdxAux name (j + 1) rest

/-- The index and type of the named row field, if present. -/
def findFieldIdx (name : String) (fields : List (String × VmType)) : Option (Nat × VmType) :=
  findFieldIdxAux name 0 fields

/-- `base::ast::is_operator_char` (external collaborator): membership
in the operator character set. -/
def isOperatorChar (c : Char) : Bool := "#+-*/&|=<>".data.contains c

/-- `field_name.starts_with('(')`. -/
def startsParen (s : String) : Bool := s.data.head? == some '('

/-- `field_name.ends_with(')')`. -/
def endsParen (s : String) : Bool := s.data.getLast? == some ')'

/-- `&field_name[1..field_name.len() - 1]`: strip the enclosing
parentheses (one character each since both are ASCII). -/
def stripParens (s : String) : String := .mk ((s.data.drop 1).dropLast)

/-- A segment the walk treats as an ordinary field name: not
parenthesized and containing no operator character. -/
def plainSeg (s : String) : Bool :=
  !(startsParen s && endsParen s) && !(s.data.any isOperatorChar)

/-- The "operators must be parenthesized" message of `get_binding`. -/
def opMessage : String :=
  "Operators cannot be used as fields directly. To access an operator field, enclose the operator with parentheses before passing it in. (test.(+) instead of test.+)"

/-- Outcome of `get_binding`: a value/type pair, a `vm::Error`, or the
`ice!`/`unwrap` panic paths. -/
inductive BindOutcome : Type where
  | ok (value : VmValue) (typ : VmType)
  | err (e : VmError)
  | ice

/-- One iteration of the field loop once the field name is settled:
resolve aliases, look the field up in the rows (else
`UndefinedField`), and index into the `Data` value (else `ice!`),
continuing with `cont`. -/
def walkStep (name : String) (typ : VmType) (value : VmValue)
    (cont : VmType → VmValue → BindOutcome) : BindOutcome :=
  let rtyp := removeAliases typ
  match findFieldIdx name (rowFields rtyp) with
  | none => .err (.undefinedField rtyp name)
  | some (i, fty) =>
    match value with
    | .data fields =>
      match fields[i]? with
      | some v => cont fty v
      | none => .ice
    | _ => .ice

/-- The `for field_name in remaining_fields.components()` loop of
`get_binding`: strip parentheses if the segment is parenthesized, else
reject bare operator segments, else look the field up and walk on. -/
def walkFields : List String → VmType → VmValue → BindOutcome
  | [], typ, value => .ok value typ
  | seg :: rest, typ, value =>
    if startsParen seg && endsParen seg then
      walkStep (stripParens seg) typ value (walkFields rest)
    else if seg.data.any isOperatorChar then
      .err (.message opMessage)
    else
      walkStep seg typ value (walkFields rest)

/-- The loop of `CompilerDatabase::get_global`, testing the length-`k`
leading segment list and shortening (`module = module.module()`) on a
miss; `k = 0` is the `module.as_str() == ""` exit. -/
def getGlobalAux (glob : List String → Option Global) (segs : List String) :
    Nat → Option (List String × Global)
  | 0 => none
  | k + 1 =>
    match glob (segs.take (k + 1)) with
    | some g => some (segs.drop (k + 1), g)
    | none => getGlobalAux glob segs k

/-- `CompilerDatabase::get_global`: find a `Global` under the longest
leading segment list, returning it with the remaining field
segments. -/
def get_global (glob : List String → Option Global) (segs : List String) :
    Option (List String × Global) :=
  getGlobalAux glob segs segs.length

/-- `CompilerDatabase::get_binding`. -/
def get_binding (glob : List String → Option Global) (segs : List String) : BindOutcome :=
  match get_global glob segs with
  | none => .err (.undefinedBinding segs)
  | some (rem, g) =>
    if rem = [] then .ok g.value g.typ
    else walkFields rem g.typ g.value

/-- Specification-side predicate (the claim's wording): every segment
exists as a record field along the walk from `typ`. -/
def fieldPathExists : List String → VmType → Bool
  | [], _ => true
  | seg :: rest, typ =>
    match findFieldIdx seg (rowFields (removeAliases typ)) with
    | some (_, fty) => fieldPathExists rest fty
    | none => false

/-- Specification-side function: the first missing segment along the
path, together with the resolved type it is missing from. -/
def firstMissing : List String → VmType → Option (VmType × String)
  | [], _ => none
  | seg :: rest, typ =>
    match findFieldIdx seg (rowFields (removeAliases typ)) with
    | some (_, fty) => firstMissing rest fty
    | none => some (removeAliases typ, seg)

/-- Well-typedness of a runtime value against a type: data fields line
up with record rows (what the VM guarantees for realized `Global`s;
the `ice!`/`unwrap` branches are exactly the violations of this
invariant). -/
inductive WT : VmValue → VmType → Prop where
  | data (fields : List VmValue) (rows : List (String × VmType)) :
      fields.length = rows.length →
      (∀ (i : Nat) (v : VmValue) (nt : String × VmType),
        fields[i]? = some v → rows[i]? = some nt → WT v nt.2) →
      WT (.data fields) (.record rows)
  | prim (n : Nat) (p : String) : WT (.prim n) (.prim p)
  | alias (v : VmValue) (n : String) (t : VmType) : WT v t → WT v (.alias n t)

/-! ## Resolution lemmas -/

theorem removeAliases_ne_alias : ∀ (t : VmType) (n : String) (u : VmType),
    removeAliases t ≠ .alias n u
  | .alias m t, n, u => by rw [removeAliases]; exact removeAliases_ne_alias t n u
  | .record fs, n, u => fun h => by
    cases (show VmType.record fs = VmType.alias n u from h)
  | .prim p, n, u => fun h => by
    cases (show VmType.prim p = VmType.alias n u from h)

theorem WT_removeAliases : ∀ (v : VmValue) (t : VmType), WT v t → WT v (removeAliases t)
  | v, .alias n t, h => by
    rw [removeAliases]
    cases h
    next h0 => exact WT_removeAliases v t h0
  | v, .record fs, h => h
  | v, .prim p, h => h

theorem findFieldIdxAux_spec (name : String) : ∀ (rows : List (String × VmType)) (j i : Nat)
    (t : VmType), findFieldIdxAux name j rows = some (i, t) →
    j ≤ i ∧ rows[i - j]? = some (name, t)
  | [], j, i, t => by simp [findFieldIdxAux]
  | (n, u) :: rest, j, i, t => by
    rw [findFieldIdxAux]
    by_cases h : n = name
    · subst h
      intro he
      simp only [if_pos rfl, Option.some.injEq, Prod.mk.injEq] at he
      obtain ⟨rfl, rfl⟩ := he
      simp
    · intro he
      rw [if_neg h] at he
      obtain ⟨hji, hrow⟩ := findFieldIdxAux_spec name rest (j + 1) i t he
      refine ⟨by omega, ?_⟩
      have hsplit : i - j = (i - (j + 1)) + 1 := by omega
      rw [hsplit, List.getElem?_cons_succ]
      exact hrow

/-- The named row found by the enumerated find is the row at the
returned index. -/
theorem findFieldIdx_spec (name : String) (rows : List (String × VmType)) (i : Nat)
    (t : VmType) (h : findFieldIdx name rows = some (i, t)) : rows[i]? = some (name, t) := by
  have h0 := findFieldIdxAux_spec name rows 0 i t h
  simpa using h0.2

/-- A plain segment step: found fields advance the walk into a
well-typed sub-value; missing fields fail with `UndefinedField` naming
the segment and the resolved type. -/
theorem walk_cons_plain (seg : String) (rest : List String) (t : VmType) (v : VmValue)
    (hp : plainSeg seg = true) (hwt : WT v t) :
    (∀ i fty, findFieldIdx seg (rowFields (removeAliases t)) = some (i, fty) →
      ∃ v', WT v' fty ∧ walkFields (seg :: rest) t v = walkFields rest fty v')
    ∧ (findFieldIdx seg (rowFields (removeAliases t)) = none →
      walkFields (seg :: rest) t v = .err (.undefinedField (removeAliases t) seg)) := by
  have hp' : (startsParen seg && endsParen seg) = false
      ∧ (seg.data.any isOperatorChar) = false := by
    constructor
    · by_contra h
      simp only [Bool.not_eq_false] at h
      simp [plainSeg, h] at hp
    · by_contra h
      simp only [Bool.not_eq_false] at h
      simp [plainSeg, h] at hp
  constructor
  · intro i fty hf
    have hrec : ∃ rows, removeAliases t = .record rows := by
      match hrt : removeAliases t with
      | .record rows => exact ⟨rows, rfl⟩
      | .alias n u => exact absurd hrt (removeAliases_ne_alias t n u)
      | .prim p =>
        rw [hrt] at hf
        simp [rowFields, findFieldIdx, findFieldIdxAux] at hf
    obtain ⟨rows, hrows⟩ := hrec
    have hwt' := WT_removeAliases v t hwt
    rw [hrows] at hwt'
    cases hwt' with
    | data fields rows hlen hpt =>
      have hf' : findFieldIdx seg rows = some (i, fty) := by rwa [hrows, rowFields] at hf
      have hrow := findFieldIdx_spec seg rows i fty hf'
      have hi : i < rows.length := by
        rcases List.getElem?_eq_some.mp hrow with ⟨h, _⟩
        exact h
      have hi' : i < fields.length := by omega
      have hv : fields[i]? = some fields[i] := List.getElem?_eq_getElem hi'
      refine ⟨fields[i], hpt i fields[i] (seg, fty) hv hrow, ?_⟩
      simp only [walkFields, hp'.1, Bool.false_eq_true, if_false, hp'.2, walkStep, hrows,
        rowFields, hf', hv]
  · intro hf
    have hwt' := WT_removeAliases v t hwt
    simp only [walkFields, hp'.1, Bool.false_eq_true, if_false, hp'.2, walkStep, hf]

/-- Claim C4's field walk, against the specification-side predicates:
with a well-typed global and plain segments the walk succeeds exactly
when every segment exists, and otherwise fails with `UndefinedField`
naming the first missing segment (and the type it is missing from). -/
theorem walkFields_spec : ∀ (rem : List String) (t : VmType) (v : VmValue),
    (∀ s ∈ rem, plainSeg s = true) → WT v t →
    (fieldPathExists rem t = true → ∃ v' t', walkFields rem t v = .ok v' t')
    ∧ (fieldPathExists rem t = false → ∃ rt f, firstMissing rem t = some (rt, f)
        ∧ walkFields rem t v = .err (.undefinedField rt f))
  | [], t, v, _, _ => by
    constructor
    · intro _
      exact ⟨v, t, rfl⟩
    · intro h
      simp [fieldPathExists] at h
  | seg :: rest, t, v, hp, hwt => by
    have hseg := hp seg (List.mem_cons_self _ _)
    have hcons := walk_cons_plain seg rest t v hseg hwt
    cases hf : findFieldIdx seg (rowFields (removeAliases t)) with
    | none =>
      constructor
      · intro h
        simp only [fieldPathExists, hf] at h
        exact Bool.noConfusion h
      · intro _
        refine ⟨removeAliases t, seg, ?_, hcons.2 hf⟩
        simp only [firstMissing, hf]
    | some p =>
      obtain ⟨i, fty⟩ := p
      obtain ⟨v', hwt', heq⟩ := hcons.1 i fty hf
      have ih := walkFields_spec rest fty v'
        (fun s hs => hp s (List.mem_cons_of_mem _ hs)) hwt'
      constructor
      · intro h
        simp only [fieldPathExists, hf] at h
        obtain ⟨v2, t2, h2⟩ := ih.1 h
        exact ⟨v2, t2, by rw [heq]; exact h2⟩
      · intro h
        simp only [fieldPathExists, hf] at h
        obtain ⟨rt, f, hm, h2⟩ := ih.2 h
        exact ⟨rt, f, by simp only [firstMissing, hf]; exact hm, by rw [heq]; exact h2⟩

/-- A plain existing leading path advances the walk to a well-typed
intermediate value. -/
theorem walkFields_append_exists : ∀ (l1 : List String) (t : VmType) (v : VmValue)
    (rest : List String), (∀ s ∈ l1, plainSeg s = true) → WT v t →
    fieldPathExists l1 t = true →
    ∃ t' v', WT v' t' ∧ walkFields (l1 ++ rest) t v = walkFields rest t' v'
  | [], t, v, rest, _, hwt, _ => ⟨t, v, hwt, by simp⟩
  | seg :: l1, t, v, rest, hp, hwt, hex => by
    have hseg := hp seg (List.mem_cons_self _ _)
    have hcons := walk_cons_plain seg (l1 ++ rest) t v hseg hwt
    cases hf : findFieldIdx seg (rowFields (removeAliases t)) with
    | none =>
      simp only [fieldPathExists, hf] at hex
      exact Bool.noConfusion hex
    | some p =>
      obtain ⟨i, fty⟩ := p
      obtain ⟨v', hwt', heq⟩ := hcons.1 i fty hf
      simp only [fieldPathExists, hf] at hex
      obtain ⟨t2, v2, hwt2, heq2⟩ := walkFields_append_exists l1 fty v' rest
        (fun s hs => hp s (List.mem_cons_of_mem _ hs)) hwt' hex
      refine ⟨t2, v2, hwt2, ?_⟩
      rw [List.cons_append, heq, heq2]

/-- The shortening loop of `get_global` finds the longest leading
segment list bound to a global, and finds none exactly when no
nonempty leading segment list is bound. -/
theorem getGlobalAux_spec (glob : List String → Option Global) (segs : List String) :
    ∀ k : Nat,
      (getGlobalAux glob segs k = none ↔ ∀ j, 1 ≤ j → j ≤ k → glob (segs.take j) = none)
      ∧ (∀ rem g, getGlobalAux glob segs k = some (rem, g) →
          ∃ j, 1 ≤ j ∧ j ≤ k ∧ glob (segs.take j) = some g ∧ rem = segs.drop j
            ∧ ∀ j', j < j' → j' ≤ k → glob (segs.take j') = none)
  | 0 => by
    constructor
    · constructor
      · intro _ j h1 h2
        omega
      · intro _
        rfl
    · intro rem g h
      simp [getGlobalAux] at h
  | k + 1 => by
    have ih := getGlobalAux_spec glob segs k
    cases hg : glob (segs.take (k + 1)) with
    | some g0 =>
      constructor
      · constructor
        · intro h
          simp [getGlobalAux, hg] at h
        · intro h
          have := h (k + 1) (by omega) (le_refl _)
          rw [this] at hg
          cases hg
      · intro rem g h
        simp only [getGlobalAux, hg, Option.some.injEq, Prod.mk.injEq] at h
        obtain ⟨rfl, rfl⟩ := h
        exact ⟨k + 1, by omega, le_refl _, hg, rfl, fun j' h1 h2 => absurd h1 (by omega)⟩
    | none =>
      constructor
      · rw [show getGlobalAux glob segs (k + 1) = getGlobalAux glob segs k by
          simp only [getGlobalAux, hg]]
        rw [ih.1]
        constructor
        · intro h j h1 h2
          rcases Nat.lt_or_ge j (k + 1) with hj | hj
          · exact h j h1 (by omega)
          · have : j = k + 1 := by omega
            subst this
            exact hg
        · intro h j h1 h2
          exact h j h1 (by omega)
      · intro rem g h
        rw [show getGlobalAux glob segs (k + 1) = getGlobalAux glob segs k by
          simp only [getGlobalAux, hg]] at h
        obtain ⟨j, hj1, hj2, hjg, hrem, hmax⟩ := ih.2 rem g h
        refine ⟨j, hj1, by omega, hjg, hrem, ?_⟩
        intro j' h1 h2
        rcases Nat.lt_or_ge j' (k + 1) with hj | hj
        · exact hmax j' h1 (by omega)
        · have : j' = k + 1 := by omega
          subst this
          exact hg

/-- Claim C4 (theorem): `get_binding` first finds the longest leading
segment list bound to a known `Global`, shortening one trailing
segment at a time, failing with `UndefinedBinding` on the full name
when no nonempty leading list is bound; the remaining segments are
then walked field-by-field through the global's type and value,
succeeding exactly when every segment exists and failing with
`UndefinedField` naming the first missing segment otherwise.  The
hypotheses restrict to plain (non-operator, non-parenthesized)
segments — bare operator segments are claim C5 — and to well-typed
realized globals. -/
theorem get_binding_resolution
    (glob : List String → Option Global) (segs : List String)
    (hplain : ∀ s ∈ segs, plainSeg s = true)
    (hwt : ∀ p g, glob p = some g → WT g.value g.typ) :
    (get_global glob segs = none
        ↔ ∀ j, 1 ≤ j → j ≤ segs.length → glob (segs.take j) = none)
    ∧ (get_global glob segs = none
        → get_binding glob segs = .err (.undefinedBinding segs))
    ∧ ∀ rem g, get_global glob segs = some (rem, g) →
        (∃ j, 1 ≤ j ∧ j ≤ segs.length ∧ glob (segs.take j) = some g ∧ rem = segs.drop j
           ∧ ∀ j', j < j' → j' ≤ segs.length → glob (segs.take j') = none)
        ∧ (fieldPathExists rem g.typ = true → ∃ v' t', get_binding glob segs = .ok v' t')
        ∧ (fieldPathExists rem g.typ = false → ∃ rt f, firstMissing rem g.typ = some (rt, f)
             ∧ get_binding glob segs = .err (.undefinedField rt f)) := by
  have hspec := getGlobalAux_spec glob segs segs.length
  refine ⟨hspec.1, ?_, ?_⟩
  · intro h
    simp [get_binding, h]
  · intro rem g hget
    obtain ⟨j, hj1, hj2, hjg, hrem, hmax⟩ := hspec.2 rem g hget
    have hwtg := hwt _ g hjg
    have hplain' : ∀ s ∈ rem, plainSeg s = true := by
      intro s hs
      refine hplain s ?_
      rw [hrem] at hs
      exact List.drop_subset j segs hs
    refine ⟨⟨j, hj1, hj2, hjg, hrem, hmax⟩, ?_, ?_⟩
    · intro hex
      by_cases hnil : rem = []
      · subst hnil
        exact ⟨g.value, g.typ, by simp [get_binding, hget]⟩
      · obtain ⟨v', t', h'⟩ := (walkFields_spec rem g.typ g.value hplain' hwtg).1 hex
        exact ⟨v', t', by simp only [get_binding, hget]; rw [if_neg hnil]; exact h'⟩
    · intro hex
      by_cases hnil : rem = []
      · subst hnil
        simp [fieldPathExists] at hex
      · obtain ⟨rt, f, hm, h'⟩ := (walkFields_spec rem g.typ g.value hplain' hwtg).2 hex
        exact ⟨rt, f, hm, by simp only [get_binding, hget]; rw [if_neg hnil]; exact h'⟩

/-- The concrete global used by the C4 witness: a record with a
nested (alias-shielded) record. -/
def c4Global : Global :=
  ⟨"m", .record [("x", .alias "A" (.record [("y", .prim "Int")])), ("z", .prim "Int")],
   .data [.data [.prim 7], .prim 3]⟩

/-- A globals environment binding only the module path `m`. -/
def c4Glob : List String → Option Global :=
  fun p => if p = ["m"] then some c4Global else none

theorem c4Global_wt : WT c4Global.value c4Global.typ := by
  refine WT.data _ _ rfl ?_
  intro i v nt h1 h2
  match i with
  | 0 =>
    simp only [List.getElem?_cons_zero, Option.some.injEq] at h1 h2
    subst h1
    subst h2
    refine WT.alias _ _ _ (WT.data _ _ rfl ?_)
    intro i v nt h1 h2
    match i with
    | 0 =>
      simp only [List.getElem?_cons_zero, Option.some.injEq] at h1 h2
      subst h1
      subst h2
      exact WT.prim 7 "Int"
    | n + 1 => simp at h1
  | 1 =>
    simp only [List.getElem?_cons_succ, List.getElem?_cons_zero, Option.some.injEq] at h1 h2
    subst h1
    subst h2
    exact WT.prim 3 "Int"
  | n + 2 => simp at h1

theorem c4Glob_wt : ∀ p g, c4Glob p = some g → WT g.value g.typ := by
  intro p g h
  by_cases hp : p = ["m"]
  · subst hp
    simp only [c4Glob, if_true, eq_self_iff_true, Option.some.injEq] at h
    subst h
    exact c4Global_wt
  · simp [c4Glob, hp] at h

/-- Witness for claim C4: `m.x.y` resolves through the nested record,
and `m.x.w` fails with `UndefinedField` naming `w`. -/
theorem get_binding_resolution_witness :
    (∃ v' t', get_binding c4Glob ["m", "x", "y"] = .ok v' t')
    ∧ (∃ rt f, firstMissing ["x", "w"] c4Global.typ = some (rt, f)
        ∧ get_binding c4Glob ["m", "x", "w"] = .err (.undefinedField rt f)) := by
  constructor
  · have h := get_binding_resolution c4Glob ["m", "x", "y"] (by decide) c4Glob_wt
    exact ((h.2.2 ["x", "y"] c4Global rfl).2.1 rfl)
  · have h := get_binding_resolution c4Glob ["m", "x", "w"] (by decide) c4Glob_wt
    exact ((h.2.2 ["x", "w"] c4Global rfl).2.2 rfl)

/-- Claim C5 (theorem): when the walk reaches a bare operator segment
(one containing an operator character and not enclosed in
parentheses), `get_binding` fails with the explicit "operators must be
parenthesized" message; a parenthesized segment `(op)` is accepted and
resolved as the field named `op` with the parentheses stripped. -/
theorem get_binding_operator_segments
    (glob : List String → Option Global) (segs : List String)
    (hwt : ∀ p g, glob p = some g → WT g.value g.typ) :
    (∀ rem g l1 seg l2, get_global glob segs = some (rem, g) → rem = l1 ++ seg :: l2 →
      (∀ s ∈ l1, plainSeg s = true) → fieldPathExists l1 g.typ = true →
      (startsParen seg && endsParen seg) = false → seg.data.any isOperatorChar = true →
      get_binding glob segs = .err (.message opMessage))
    ∧ (∀ seg rest t v, (startsParen seg && endsParen seg) = true →
      walkFields (seg :: rest) t v = walkStep (stripParens seg) t v (walkFields rest)) := by
  constructor
  · intro rem g l1 seg l2 hget hrem hplain hex hnp hop
    obtain ⟨j, _, _, hjg, _, _⟩ :=
      (getGlobalAux_spec glob segs segs.length).2 rem g hget
    have hwtg := hwt _ g hjg
    obtain ⟨t', v', hwt', heq⟩ :=
      walkFields_append_exists l1 g.typ g.value (seg :: l2) hplain hwtg hex
    have hne : rem ≠ [] := by
      rw [hrem]
      simp
    simp only [get_binding, hget]
    rw [if_neg hne, hrem, heq]
    simp [walkFields, hnp, hop]
  · intro seg rest t v h
    simp [walkFields, h]

/-- The concrete global used by the C5 witness: a record with an
operator-named field. -/
def c5Global : Global := ⟨"t", .record [("+", .prim "Fn")], .data [.prim 1]⟩

/-- A globals environment binding only the module path `t`. -/
def c5Glob : List String → Option Global :=
  fun p => if p = ["t"] then some c5Global else none

theorem c5Glob_wt : ∀ p g, c5Glob p = some g → WT g.value g.typ := by
  intro p g h
  by_cases hp : p = ["t"]
  · subst hp
    simp only [c5Glob, if_true, eq_self_iff_true, Option.some.injEq] at h
    subst h
    refine WT.data _ _ rfl ?_
    intro i v nt h1 h2
    match i with
    | 0 =>
      simp only [List.getElem?_cons_zero, Option.some.injEq] at h1 h2
      subst h1
      subst h2
      exact WT.prim 1 "Fn"
    | n + 1 => simp at h1
  · simp [c5Glob, hp] at h

/-- Witness for claim C5: `t.+` is rejected with the explicit
operator message, while `t.(+)` resolves to the `+` field. -/
theorem get_binding_operator_segments_witness :
    get_binding c5Glob ["t", "+"] = .err (.message opMessage)
    ∧ walkFields ["(+)"] c5Global.typ c5Global.value
        = walkStep "+" c5Global.typ c5Global.value (walkFields [])
    ∧ get_binding c5Glob ["t", "(+)"] = .ok (.prim 1) (.prim "Fn") := by
  have h := get_binding_operator_segments c5Glob ["t", "+"] c5Glob_wt
  refine ⟨h.1 ["+"] c5Global [] "+" [] rfl rfl (by simp) rfl (by decide) (by decide),
          ?_, rfl⟩
  have h2 := (get_binding_operator_segments c5Glob ["t", "(+)"] c5Glob_wt).2
    "(+)" [] c5Global.typ c5Global.value (by decide)
  exact h2

/-! ## Claim C10: the `Error` equality laws -/

/-- Claim C10 (theorem): under the `Error` equality
(`eq_error`, i.e. downcast-then-compare), a clone of an error equals
the error; two errors wrapping underlying errors of different concrete
types (distinct `TypeId`s, so the downcast fails) are never equal; and
`Error::message(s)` equals `Error::message(t)` exactly when `s = t`. -/
theorem error_equality_laws :
    (∀ e : Error, (e.clone).eqE e = true)
    ∧ (∀ a b : Error, a.val.typeId ≠ b.val.typeId → a.eqE b = false)
    ∧ (∀ s t : String, ((Error.message s).eqE (Error.message t) = true ↔ s = t)) := by
  refine ⟨?_, ?_, ?_⟩
  · intro e
    obtain ⟨v⟩ := e
    cases v <;>
      simp [Error.clone, Error.eqE, MacroErrorValue.cloneError, MacroErrorValue.eqError,
        MacroErrorValue.downcastStringError, MacroErrorValue.downcastImportError]
  · intro a b h
    obtain ⟨va⟩ := a
    obtain ⟨vb⟩ := b
    cases va <;> cases vb <;>
      simp_all [Error.eqE, MacroErrorValue.eqError, MacroErrorValue.typeId,
        MacroErrorValue.downcastStringError, MacroErrorValue.downcastImportError]
  · intro s t
    simp [Error.message, Error.eqE, MacroErrorValue.eqError,
      MacroErrorValue.downcastStringError]

/-- Witness for claim C10 at concrete errors: a cloned message error
equals itself, a message error never equals a loader error wrapping
the same string, and message equality is string equality. -/
theorem error_equality_laws_witness :
    ((Error.message "x").clone).eqE (Error.message "x") = true
    ∧ (Error.message "a").eqE (Error.new (.importError "a")) = false
    ∧ ((Error.message "s").eqE (Error.message "s") = true ↔ "s" = "s") :=
  ⟨error_equality_laws.1 (Error.message "x"),
   error_equality_laws.2.1 (Error.message "a") (Error.new (.importError "a")) (by decide),
   error_equality_laws.2.2 "s" "s"⟩

/-! ## Claim C9: the `module_text` query and the compilation state -/

/-- Update-or-insert into an association list. -/
def setAssoc (k : String) (v : String) : List (String × String) → List (String × String)
  | [] => [(k, v)]
  | (k0, v0) :: rest => if k0 = k then (k0, v) :: rest else (k0, v0) :: setAssoc k v rest

/-- Create-or-bump of `module_states`:
`.entry(module).and_modify(|v| *v += 1).or_default()` — an existing
revision is incremented, a fresh module starts at the default `0`. -/
def bumpOrInit (m : String) : List (String × Nat) → List (String × Nat)
  | [] => [(m, 0)]
  | (k, v) :: rest => if k = m then (k, v + 1) :: rest else (k, v) :: bumpOrInit m rest

/-- The observable compilation `State`: the file map contents per file
name (`code_map` + `index_map`) and the per-module revision counters
(`module_states`). -/
structure CompState where
  fileMaps : List (String × String)
  moduleStates : List (String × Nat)

/-- `State::add_filemap`: keep the existing file map when it already
holds this exact source, otherwise register the new source under the
file name. -/
def CompState.add_filemap (st : CompState) (file source : String) : CompState :=
  match st.fileMaps.lookup file with
  | some s =>
    if s = source then st
    else { st with fileMaps := setAssoc file source st.fileMaps }
  | none => { st with fileMaps := setAssoc file source st.fileMaps }

/-- `CompilationBase::new_module`: register the text and
create-or-bump the module's revision entry. -/
def CompState.new_module (st : CompState) (module contents : String) : CompState :=
  let st1 := st.add_filemap module contents
  { st1 with moduleStates := bumpOrInit module st1.moduleStates }

/-- `module.replace(".", "/")`: both strings are single ASCII
characters, so `str::replace` is the character map. -/
def dotsToSlashes (s : String) : String :=
  .mk (s.data.map (fun c => if c = '.' then '/' else c))

/-- The expected file path of a module: `.` → path separator plus the
fixed `.glu` source extension. -/
def moduleFilename (module : String) : String := dotsToSlashes module ++ ".glu"

/-- The `module_text` query (its `db.module_state(module)` call only
records the dependency edge and is invisible here): derive the file
path, invoke the external module loader with the name and the path,
wrap a loader failure into the macro `Error` and register nothing, or
register the returned text via `new_module` and return it. -/
def module_text (loader : String → String → Except String String)
    (st : CompState) (module : String) : CompState × Except Error String :=
  let filename := moduleFilename module
  match loader module filename with
  | .error e => (st, .error (Error.new (.importError e)))
  | .ok contents => (st.new_module module contents, .ok contents)

theorem setAssoc_lookup_self (k v : String) : ∀ l : List (String × String),
    (setAssoc k v l).lookup k = some v
  | [] => by simp [setAssoc, List.lookup]
  | (k0, v0) :: rest => by
    by_cases h : k0 = k
    · subst h
      simp [setAssoc, List.lookup]
    · have hb : (k == k0) = false := by
        simp only [beq_eq_false_iff_ne, ne_eq]
        exact fun he => h he.symm
      simp [setAssoc, h, List.lookup, hb, setAssoc_lookup_self k v rest]

theorem bumpOrInit_lookup_self (m : String) : ∀ l : List (String × Nat),
    (l.lookup m = none → (bumpOrInit m l).lookup m = some 0)
    ∧ ∀ r, l.lookup m = some r → (bumpOrInit m l).lookup m = some (r + 1)
  | [] => by simp [bumpOrInit, List.lookup]
  | (k, v) :: rest => by
    by_cases h : k = m
    · subst h
      simp [bumpOrInit, List.lookup]
    · have hb : (m == k) = false := by
        simp only [beq_eq_false_iff_ne, ne_eq]
        exact fun he => h he.symm
      simp only [bumpOrInit, h, if_false, List.lookup, hb]
      exact bumpOrInit_lookup_self m rest

theorem bumpOrInit_lookup_other (m x : String) (hx : x ≠ m) : ∀ l : List (String × Nat),
    (bumpOrInit m l).lookup x = l.lookup x
  | [] => by
    have hb : (x == m) = false := by simpa [beq_eq_false_iff_ne] using hx
    simp [bumpOrInit, List.lookup, hb]
  | (k, v) :: rest => by
    by_cases h : k = m
    · subst h
      have hb : (x == k) = false := by simpa [beq_eq_false_iff_ne] using hx
      simp [bumpOrInit, List.lookup, hb]
    · simp only [bumpOrInit, h, if_false, List.lookup]
      cases hxk : (x == k) with
      | true => rfl
      | false => exact bumpOrInit_lookup_other m x hx rest

/-- `add_filemap` does not touch the revision counters. -/
theorem add_filemap_moduleStates (st : CompState) (file source : String) :
    (st.add_filemap file source).moduleStates = st.moduleStates := by
  rw [CompState.add_filemap]
  cases st.fileMaps.lookup file with
  | some s => by_cases hs : s = source <;> simp [hs]
  | none => simp

/-- The registered file map of `new_module` holds the new text. -/
theorem new_module_filemap (st : CompState) (module contents : String) :
    (st.new_module module contents).fileMaps.lookup module = some contents := by
  rw [CompState.new_module]
  show (st.add_filemap module contents).fileMaps.lookup module = some contents
  rw [CompState.add_filemap]
  cases hl : st.fileMaps.lookup module with
  | some s =>
    by_cases hs : s = contents
    · subst hs
      simpa using hl
    · simpa [hs] using setAssoc_lookup_self module contents st.fileMaps
  | none => simpa using setAssoc_lookup_self module contents st.fileMaps

/-- Claim C9 (theorem): `module_text` derives the path by replacing
each `.` of the dotted name with the path separator and appending the
fixed `.glu` extension, invokes the external loader with the name and
that path, and on success registers the returned text — adding the
file map and creating (at revision 0) or bumping the module's
revision entry, leaving other modules' entries alone — and returns the
text; on loader failure it returns the wrapped load error and
registers nothing. -/
theorem module_text_spec (loader : String → String → Except String String)
    (st : CompState) (module : String) :
    (∀ text, loader module (moduleFilename module) = .ok text →
      module_text loader st module = (st.new_module module text, .ok text)
      ∧ (st.new_module module text).fileMaps.lookup module = some text
      ∧ (st.moduleStates.lookup module = none →
          (st.new_module module text).moduleStates.lookup module = some 0)
      ∧ (∀ r, st.moduleStates.lookup module = some r →
          (st.new_module module text).moduleStates.lookup module = some (r + 1))
      ∧ (∀ x, x ≠ module →
          (st.new_module module text).moduleStates.lookup x = st.moduleStates.lookup x))
    ∧ (∀ e, loader module (moduleFilename module) = .error e →
      module_text loader st module = (st, .error (Error.new (.importError e)))) := by
  constructor
  · intro text hok
    have hms : (st.new_module module text).moduleStates
        = bumpOrInit module st.moduleStates := by
      rw [CompState.new_module]
      simp [add_filemap_moduleStates]
    refine ⟨by simp [module_text, hok], new_module_filemap st module text, ?_, ?_, ?_⟩
    · intro hnone
      rw [hms]
      exact (bumpOrInit_lookup_self module st.moduleStates).1 hnone
    · intro r hr
      rw [hms]
      exact (bumpOrInit_lookup_self module st.moduleStates).2 r hr
    · intro x hx
      rw [hms]
      exact bumpOrInit_lookup_other module x hx st.moduleStates
  · intro e herr
    simp [module_text, herr]

/-- A loader stub serving one module. -/
def c9Loader : String → String → Except String String :=
  fun m p =>
    if m = "std.prelude" ∧ p = "std/prelude.glu" then .ok "let x = 1"
    else .error "not found"

/-- Witness for claim C9: loading `std.prelude` for the first time
registers its text under revision 0 and returns it; the loader is
invoked at the derived path `std/prelude.glu`. -/
theorem module_text_spec_witness :
    module_text c9Loader ⟨[], []⟩ "std.prelude"
        = ((⟨[], []⟩ : CompState).new_module "std.prelude" "let x = 1", .ok "let x = 1")
    ∧ ((⟨[], []⟩ : CompState).new_module "std.prelude" "let x = 1").moduleStates.lookup
        "std.prelude" = some 0
    ∧ module_text c9Loader ⟨[], []⟩ "other" = (⟨[], []⟩, .error (Error.new (.importError "not found"))) := by
  have h := module_text_spec c9Loader ⟨[], []⟩ "std.prelude"
  have hok : c9Loader "std.prelude" (moduleFilename "std.prelude") = .ok "let x = 1" := rfl
  have h1 := h.1 "let x = 1" hok
  refine ⟨h1.1, h1.2.2.1 rfl, ?_⟩
  exact (module_text_spec c9Loader ⟨[], []⟩ "other").2 "not found" rfl

/-! ## Claim C6: `collect_garbage` and the `import` query

The salsa storage internals are an external collaborator; the entry
shape is modelled from the spec: sweeping with
`SweepStrategy::default().discard_values().sweep_all_revisions()`
"evicts values, keeps dependency metadata" across all tracked
revisions. -/

/-- A memoized cache entry of one query: the value (evicted by a
`discard_values` sweep) and the recorded dependency edges (kept). -/
structure QueryEntry (α : Type) where
  value : Option α
  deps : List String

/-- The per-query caches of the `CompileStorage` query group, keyed by
(argument, revision); the payload types are opaque to the claims. -/
structure QueryCaches where
  moduleText : List ((String × Nat) × QueryEntry String)
  typechecked : List ((String × Nat) × QueryEntry String)
  compiled : List ((String × Nat) × QueryEntry String)
  importQ : List ((String × Nat) × QueryEntry Expr)
  globalsQ : List ((String × Nat) × QueryEntry (List String))

/-- One query's sweep under the `discard_values` +
`sweep_all_revisions` strategy: every entry of every revision loses
its value and keeps its dependency edges. -/
def sweepDiscard {α : Type} (c : List ((String × Nat) × QueryEntry α)) :
    List ((String × Nat) × QueryEntry α) :=
  c.map (fun e => (e.1, { e.2 with value := none }))

/-- `CompilerDatabase::collect_garbage`: sweep exactly the
`ModuleTextQuery`, `TypecheckedModuleQuery` and `CompiledModuleQuery`
caches. -/
def collect_garbage (db : QueryCaches) : QueryCaches :=
  { db with
    moduleText := sweepDiscard db.moduleText
    typechecked := sweepDiscard db.typechecked
    compiled := sweepDiscard db.compiled }

/-- `modulename.starts_with('@')`. -/
def startsAt (s : String) : Bool := s.data.head? == some '@'

/-- The `import` query: normalize the name by prepending the reserved
`@` prefix when missing, let the external `Import` machinery load the
module (`load_module`, whose outcome is the `load` parameter), collect
garbage, then propagate a failure (`result?`) or return the
identifier expression. -/
def importQuery (load : String → Except Error Unit) (db : QueryCaches)
    (modulename : String) : QueryCaches × Except Error Expr :=
  let name := if startsAt modulename then modulename else "@" ++ modulename
  let result := load name
  let db1 := collect_garbage db
  match result with
  | .error e => (db1, .error e)
  | .ok _ => (db1, .ok (.ident name))

/-- Claim C6 (theorem): after every successful `import`, and before
the result is propagated, exactly the `module_text`,
`typechecked_module` and `compiled_module` caches are swept across all
tracked revisions — every entry's value evicted, every entry's
dependency edges kept — while the `import` and `globals` caches are
untouched, and the normalized identifier is returned. -/
theorem import_sweeps_caches (load : String → Except Error Unit) (db : QueryCaches)
    (modulename : String)
    (hok : load (if startsAt modulename then modulename else "@" ++ modulename)
      = .ok ()) :
    (importQuery load db modulename).1.importQ = db.importQ
    ∧ (importQuery load db modulename).1.globalsQ = db.globalsQ
    ∧ (importQuery load db modulename).1.moduleText = sweepDiscard db.moduleText
    ∧ (importQuery load db modulename).1.typechecked = sweepDiscard db.typechecked
    ∧ (importQuery load db modulename).1.compiled = sweepDiscard db.compiled
    ∧ (∀ e ∈ (importQuery load db modulename).1.moduleText, e.2.value = none)
    ∧ (importQuery load db modulename).1.moduleText.map (fun e => (e.1, e.2.deps))
        = db.moduleText.map (fun e => (e.1, e.2.deps))
    ∧ (importQuery load db modulename).2
        = .ok (.ident (if startsAt modulename then modulename else "@" ++ modulename)) := by
  refine ⟨by simp [importQuery, hok, collect_garbage],
          by simp [importQuery, hok, collect_garbage],
          by simp [importQuery, hok, collect_garbage],
          by simp [importQuery, hok, collect_garbage],
          by simp [importQuery, hok, collect_garbage], ?_, ?_,
          by simp [importQuery, hok]⟩
  · intro e he
    simp only [importQuery, hok, collect_garbage] at he
    obtain ⟨e0, _, rfl⟩ := List.mem_map.mp he
    rfl
  · simp only [importQuery, hok, collect_garbage, sweepDiscard, List.map_map]
    rfl

/-- A demonstration cache content. -/
def c6Db : QueryCaches :=
  ⟨[(("m", 0), ⟨some "text", ["m"]⟩)], [(("m", 0), ⟨some "tc", ["m"]⟩)],
   [(("m", 0), ⟨some "cc", ["m"]⟩)], [(("@m", 0), ⟨some (.ident "@m"), []⟩)],
   [(("", 0), ⟨some ["m"], ["m"]⟩)]⟩

/-- Witness for claim C6 at a concrete cache state and module. -/
theorem import_sweeps_caches_witness :
    (importQuery (fun _ => .ok ()) c6Db "m").1.importQ = c6Db.importQ
    ∧ (importQuery (fun _ => .ok ()) c6Db "m").1.moduleText
        = [(("m", 0), ⟨none, ["m"]⟩)]
    ∧ (importQuery (fun _ => .ok ()) c6Db "m").2 = .ok (.ident "@m") := by
  have h := import_sweeps_caches (fun _ => .ok ()) c6Db "m" rfl
  refine ⟨h.1, ?_, ?_⟩
  · rw [h.2.2.1]
    rfl
  · have h8 := h.2.2.2.2.2.2.2
    rw [h8]
    rfl

/-! ## Claim C2: cycle detection on the `import` query

`#[salsa::cycle]` marks `import` for cycle recovery; the detection
lives in the salsa runtime and the recursion runs through the external
`Import` machinery (`load_module`), neither of which is part of the
exported sources.  Modelled from the spec: the engine keeps an
explicit in-progress set of `import` keys; re-entering an in-progress
key is the cycle signal, converted into a typed cyclic-import error at
that recursion point.  The fuel argument makes the recursion depth
explicit so that boundedness is a theorem rather than an assumption. -/

/-- Outcome of resolving one `import`: success, the typed
cyclic-dependency error, or an exhausted recursion budget (shown
impossible with adequate fuel). -/
inductive ImportOutcome : Type where
  | ok
  | cyclicImport (m : String)
  | outOfFuel
deriving DecidableEq, Repr

/-- Resolve the dependencies of a module in order, short-circuiting on
the first failure. -/
def resolveList (f : String → ImportOutcome) : List String → ImportOutcome
  | [] => .ok
  | d :: ds =>
    match f d with
    | .ok => resolveList f ds
    | e => e

/-- Modelled from the spec: the `import` resolution with the explicit
in-progress set.  Re-entering an in-progress module is the cycle
signal; otherwise the module is marked in progress and its
dependencies are resolved recursively. -/
def resolveImport (deps : String → List String) :
    Nat → List String → String → ImportOutcome
  | 0, _, _ => .outOfFuel
  | fuel + 1, inProgress, m =>
    if m ∈ inProgress then .cyclicImport m
    else resolveList (resolveImport deps fuel (m :: inProgress)) (deps m)

/-- A nonempty dependency path (the "transitively requires" of the
claim). -/
inductive DepPath (deps : String → List String) : String → String → Prop where
  | step {a b : String} : b ∈ deps a → DepPath deps a b
  | trans {a b c : String} : b ∈ deps a → DepPath deps b c → DepPath deps a c

theorem resolveList_ok (f : String → ImportOutcome) : ∀ l : List String,
    resolveList f l = .ok → ∀ d ∈ l, f d = .ok
  | [] => by simp
  | d :: ds => by
    rw [resolveList]
    cases hf : f d with
    | ok =>
      intro h e he
      rcases List.mem_cons.mp he with rfl | he
      · exact hf
      · exact resolveList_ok f ds h e he
    | cyclicImport c =>
      intro h
      cases h
    | outOfFuel =>
      intro h
      cases h

theorem resolveList_fuel (f : String → ImportOutcome) : ∀ l : List String,
    resolveList f l = .outOfFuel → ∃ d ∈ l, f d = .outOfFuel
  | [] => by simp [resolveList]
  | d :: ds => by
    rw [resolveList]
    cases hf : f d with
    | ok =>
      intro h
      obtain ⟨e, he, h0⟩ := resolveList_fuel f ds h
      exact ⟨e, List.mem_cons_of_mem _ he, h0⟩
    | cyclicImport c =>
      intro h
      cases h
    | outOfFuel =>
      intro _
      exact ⟨d, List.mem_cons_self _ _, hf⟩

/-- A module that resolves successfully was not in progress. -/
theorem resolveImport_ok_notin (deps : String → List String) :
    ∀ fuel inProgress t, resolveImport deps fuel inProgress t = .ok → t ∉ inProgress
  | 0, inProgress, t => by simp [resolveImport]
  | fuel + 1, inProgress, t => by
    intro h hmem
    rw [resolveImport, if_pos hmem] at h
    cases h

/-- A module that resolves successfully has no dependency path back
into the in-progress set or to itself. -/
theorem resolveImport_ok_no_cycle (deps : String → List String) :
    ∀ {m t}, DepPath deps m t →
      ∀ fuel inProgress, resolveImport deps fuel inProgress m = .ok →
        t ∉ m :: inProgress := by
  intro m t hpath
  induction hpath with
  | @step a b hb =>
    intro fuel inProgress hok
    cases fuel with
    | zero => simp [resolveImport] at hok
    | succ n =>
      rw [resolveImport] at hok
      by_cases hm : a ∈ inProgress
      · rw [if_pos hm] at hok
        cases hok
      · rw [if_neg hm] at hok
        have h := resolveList_ok _ _ hok _ hb
        exact resolveImport_ok_notin deps n _ _ h
  | @trans a b c hb _ ih =>
    intro fuel inProgress hok
    cases fuel with
    | zero => simp [resolveImport] at hok
    | succ n =>
      rw [resolveImport] at hok
      by_cases hm : a ∈ inProgress
      · rw [if_pos hm] at hok
        cases hok
      · rw [if_neg hm] at hok
        have h := resolveList_ok _ _ hok _ hb
        have h2 := ih n _ h
        intro hmem
        exact h2 (List.mem_cons_of_mem _ hmem)

/-- With fuel exceeding the number of modules outside the in-progress
set, the resolution never exhausts its budget: the recursion depth is
bounded by the size of the module universe. -/
theorem resolveImport_no_fuel_exhaustion (deps : String → List String)
    (univ : List String) (hclosed : ∀ a ∈ univ, ∀ d ∈ deps a, d ∈ univ) :
    ∀ fuel inProgress m, m ∈ univ → inProgress.Nodup → (∀ x ∈ inProgress, x ∈ univ) →
      univ.length < fuel + inProgress.length →
      resolveImport deps fuel inProgress m ≠ .outOfFuel
  | 0, inProgress, m => by
    intro hm hnd hsub hlen
    exfalso
    have hle := (List.Nodup.subperm hnd (fun x hx => hsub x hx)).length_le
    omega
  | fuel + 1, inProgress, m => by
    intro hm hnd hsub hlen h
    rw [resolveImport] at h
    by_cases hmem : m ∈ inProgress
    · rw [if_pos hmem] at h
      cases h
    · rw [if_neg hmem] at h
      obtain ⟨d, hd, hdf⟩ := resolveList_fuel _ _ h
      refine resolveImport_no_fuel_exhaustion deps univ hclosed fuel (m :: inProgress) d
        (hclosed m hm d hd) (List.nodup_cons.mpr ⟨hmem, hnd⟩) ?_ ?_ hdf
      · intro x hx
        rcases List.mem_cons.mp hx with rfl | hx
        · exact hm
        · exact hsub x hx
      · simp only [List.length_cons]
        omega

/-- Claim C2 (theorem; the in-progress mechanism is modelled from the
spec, see above): for every dependency graph closed over a finite
module universe, resolving a module `m` never exhausts a fuel budget
of `|univ| + 1` — the recursion is bounded, there is no unbounded
recursion or stack exhaustion — and whenever resolving `m`
transitively requires `m` again, the resolution returns the typed
cyclic-import error. -/
theorem import_cycle_detected (deps : String → List String) (univ : List String)
    (hclosed : ∀ a ∈ univ, ∀ d ∈ deps a, d ∈ univ) (m : String) (hm : m ∈ univ) :
    (resolveImport deps (univ.length + 1) [] m ≠ .outOfFuel)
    ∧ (DepPath deps m m →
        ∃ c, resolveImport deps (univ.length + 1) [] m = .cyclicImport c) := by
  have hfuel := resolveImport_no_fuel_exhaustion deps univ hclosed (univ.length + 1) [] m hm
    List.nodup_nil (by simp) (by simp)
  refine ⟨hfuel, ?_⟩
  intro hcyc
  cases hres : resolveImport deps (univ.length + 1) [] m with
  | ok =>
    have h := resolveImport_ok_no_cycle deps hcyc (univ.length + 1) [] hres
    simp at h
  | cyclicImport c => exact ⟨c, rfl⟩
  | outOfFuel => exact absurd hres hfuel

/-- The two-module cyclic import graph `A → B → A`. -/
def c2deps : String → List String :=
  fun m => if m = "A" then ["B"] else if m = "B" then ["A"] else []

/-- Witness for claim C2: on `A ↔ B` the resolution of `A` reports a
cyclic import (and does not exhaust its budget). -/
theorem import_cycle_detected_witness :
    resolveImport c2deps (["A", "B"].length + 1) [] "A" ≠ .outOfFuel
    ∧ ∃ c, resolveImport c2deps (["A", "B"].length + 1) [] "A" = .cyclicImport c := by
  have hpath : DepPath c2deps "A" "A" :=
    DepPath.trans (show "B" ∈ c2deps "A" by decide)
      (DepPath.step (show "A" ∈ c2deps "B" by decide))
  have h := import_cycle_detected c2deps ["A", "B"] (by decide) "A" (by decide)
  exact ⟨h.1, h.2 hpath⟩

end Gluon
